import Mathlib

/-!
Verification development for `docs/scrape_javadoc.py`, a breadth-first
documentation crawler that mirrors an HTML site as normalized plain-text
files.  Strings are modelled as `List Char`; each Python function of the
script is translated into a computable Lean function of the same name.
Third-party library behaviour the script relies on (`urllib.parse`,
`pathlib.PurePosixPath`, `requests.Response.raise_for_status`,
BeautifulSoup tree accessors) is modelled by faithful translations of the
corresponding library semantics, restricted to the feature subset the
script exercises (noted at each definition).
-/

namespace Scrape

/-- `Str` abbreviates the model of Python strings. -/
abbrev Str := List Char

/-- Python `str.isspace` / the character class stripped by `str.strip()`:
ASCII whitespace, the C0 separator block, and the Unicode space
separators. -/
def isPyWs (c : Char) : Bool :=
  c = ' ' || c = '\t' || c = '\n' || c = '\x0b' || c = '\x0c' || c = '\r' ||
  (0x1c ≤ c.toNat && c.toNat ≤ 0x1f) || c.toNat = 0x85 || c.toNat = 0xa0 ||
  c.toNat = 0x1680 || (0x2000 ≤ c.toNat && c.toNat ≤ 0x200a) ||
  c.toNat = 0x2028 || c.toNat = 0x2029 || c.toNat = 0x202f ||
  c.toNat = 0x205f || c.toNat = 0x3000

/-- Characters matched by the regex class `[ \t]` (space or tab). -/
def isHT (c : Char) : Bool := c = ' ' || c = '\t'

/-- Python `str.strip()` with no argument: drop leading and trailing
whitespace characters. -/
def pyStrip (l : Str) : Str :=
  (l.dropWhile isPyWs).rdropWhile isPyWs

/-- Python `str.rstrip()` with no argument. -/
def pyRStrip (l : Str) : Str :=
  l.rdropWhile isPyWs

/-- Python `str.lstrip()` restricted to a character predicate. -/
def pyLStripP (p : Char → Bool) (l : Str) : Str :=
  l.dropWhile p

/-- ASCII lower-casing, modelling Python `str.lower()` on the ASCII
strings (URLs, tag names, class names) this script manipulates. -/
def lowerStr (l : Str) : Str := l.map Char.toLower

/-- `s.replace("\r\n", "\n")`: first step of line-ending unification in
`normalize`. -/
def crlf2nl : Str → Str
  | [] => []
  | [c] => [c]
  | a :: b :: r =>
    if a = '\r' ∧ b = '\n' then '\n' :: crlf2nl r else a :: crlf2nl (b :: r)

/-- `s.replace("\r\n", "\n").replace("\r", "\n")` (lines 27 of the
script). -/
def cr2nl (l : Str) : Str :=
  (crlf2nl l).map (fun c => if c = '\r' then '\n' else c)

/-- State machine for `re.sub(r"[ \t]+", " ", s)`: a maximal run of
spaces/tabs is replaced by a single space (emitted at the start of the
run, as the regex replaces the whole leftmost-longest match).  `inRun`
records whether the previous character belonged to a run. -/
def squashSpacesAux : Bool → Str → Str
  | _, [] => []
  | inRun, c :: r =>
    if isHT c then
      (if inRun then squashSpacesAux true r else ' ' :: squashSpacesAux true r)
    else c :: squashSpacesAux false r

/-- `re.sub(r"[ \t]+", " ", s)` (line 28 of the script). -/
def squashSpaces (l : Str) : Str := squashSpacesAux false l

/-- State machine for `re.sub(r" *\n *", "\n", s)`: every maximal run of
spaces adjacent to a newline (on either side) is deleted.  `prevNl` is
true when the last emitted character is a newline; `buf` counts pending
spaces whose fate is not yet decided. -/
def trimNlAux : Bool → Nat → Str → Str
  | prevNl, buf, [] => if prevNl then [] else List.replicate buf ' '
  | prevNl, buf, c :: r =>
    if c = ' ' then trimNlAux prevNl (buf + 1) r
    else if c = '\n' then '\n' :: trimNlAux true 0 r
    else (if prevNl then [] else List.replicate buf ' ') ++ c :: trimNlAux false 0 r

/-- `re.sub(r" *\n *", "\n", s)` (line 29 of the script). -/
def trimNl (l : Str) : Str := trimNlAux false 0 l

/-- Replacement emitted for a pending run of `k` newlines under
`re.sub(r"\n{3,}", "\n\n", s)`: runs of three or more collapse to two,
shorter runs are kept. -/
def emitNl (k : Nat) : Str :=
  if 3 ≤ k then ['\n', '\n'] else List.replicate k '\n'

/-- State machine for `re.sub(r"\n{3,}", "\n\n", s)`; `k` counts pending
newlines. -/
def squashNlAux : Nat → Str → Str
  | k, [] => emitNl k
  | k, c :: r =>
    if c = '\n' then squashNlAux (k + 1) r
    else emitNl k ++ c :: squashNlAux 0 r

/-- `re.sub(r"\n{3,}", "\n\n", s)` (line 30 of the script). -/
def squashNl (l : Str) : Str := squashNlAux 0 l

/-- `normalize` (lines 26-31 of the script): unify line endings, collapse
horizontal whitespace, trim spaces around newlines, cap newline runs at
two, strip the whole string and append one newline. -/
def normalize (s : Str) : Str :=
  pyStrip (squashNl (trimNl (squashSpaces (cr2nl s)))) ++ ['\n']

/-- Invariant: no space character directly adjacent to a newline.  This is
the class of strings on which `re.sub(r" *\n *", "\n")` is the identity. -/
def noPairSpNl (l : Str) : Prop :=
  List.Chain' (fun a b => ¬((a = ' ' ∧ b = '\n') ∨ (a = '\n' ∧ b = ' '))) l

/-- Invariant: no two adjacent space characters. -/
def noDblSp (l : Str) : Prop :=
  List.Chain' (fun a b => ¬(a = ' ' ∧ b = ' ')) l

/-- Invariant: no run of three or more newlines (stated as: three
consecutive newlines never occur as a contiguous substring). -/
def noTripleNl (l : Str) : Prop :=
  ¬ (['\n', '\n', '\n'] <:+: l)

instance (l : Str) : Decidable (noPairSpNl l) :=
  inferInstanceAs (Decidable (List.Chain' _ l))

instance (l : Str) : Decidable (noDblSp l) :=
  inferInstanceAs (Decidable (List.Chain' _ l))

instance (l : Str) : Decidable (noTripleNl l) :=
  inferInstanceAs (Decidable ¬ (_ <:+: l))

/-! ## HTML document model

`html.parser`-produced BeautifulSoup trees are modelled by `Node`: either
a `NavigableString` or a `Tag` with a (lower-cased, as the HTML parser
produces) name, an attribute list and children.  `NodeList` is a nested
list kept as a separate inductive so that all tree recursions are
structural. -/

mutual

inductive Node where
  | text (s : Str)
  | tag (name : Str) (attrs : List (Str × Str)) (children : NodeList)
deriving DecidableEq

inductive NodeList where
  | nil
  | cons (hd : Node) (tl : NodeList)
deriving DecidableEq

end

/-- Build a `NodeList` from a `List Node` (construction convenience). -/
def NodeList.ofList : List Node → NodeList
  | [] => .nil
  | n :: ns => .cons n (NodeList.ofList ns)

/-- Element constructor from a plain list of children. -/
def elem (name : String) (attrs : List (String × String)) (cs : List Node) : Node :=
  .tag name.toList (attrs.map (fun p => (p.1.toList, p.2.toList))) (NodeList.ofList cs)

/-- Text node constructor. -/
def txt (s : String) : Node := .text s.toList

/-- First value of an attribute, as BeautifulSoup's `tag[attr]` /
`tag.get(attr)` on the parsed attribute dictionary. -/
def getAttrOf (attrs : List (Str × Str)) (key : Str) : Option Str :=
  (attrs.find? (fun p => p.1 = key)).map (fun p => p.2)

/-- Attribute lookup on a node (`none` on text nodes). -/
def getAttrN (n : Node) (key : Str) : Option Str :=
  match n with
  | .text _ => none
  | .tag _ attrs _ => getAttrOf attrs key

/-- Does a tag node carry the given name? -/
def isNamed (n : Node) (nm : Str) : Bool :=
  match n with
  | .text _ => false
  | .tag name _ _ => name = nm

/-- Python `str.split()` with no argument: split on whitespace runs,
dropping empty tokens.  BeautifulSoup uses this to turn the `class`
attribute into a token list. -/
def splitWsAux (acc : Str) : Str → List Str
  | [] => if acc = [] then [] else [acc.reverse]
  | c :: r =>
    if isPyWs c then
      (if acc = [] then splitWsAux [] r else acc.reverse :: splitWsAux [] r)
    else splitWsAux (c :: acc) r

/-- Whitespace split (see `splitWsAux`). -/
def splitWs (s : Str) : List Str := splitWsAux [] s

/-- The multi-valued `class` attribute of a node, as BeautifulSoup
presents it (`el.get("class", [])`). -/
def classTokens (n : Node) : List Str :=
  match getAttrN n (("class").toList) with
  | none => []
  | some v => splitWs v

mutual

/-- All descendant `NavigableString` contents of a node, in document
order (BeautifulSoup's `self.strings`). -/
def nodeStrings : Node → List Str
  | .text s => [s]
  | .tag _ _ cs => nodeListStrings cs

/-- See `nodeStrings`. -/
def nodeListStrings : NodeList → List Str
  | .nil => []
  | .cons n t => nodeStrings n ++ nodeListStrings t

end

/-- BeautifulSoup `el.get_text(sep, strip=True)`: strip each descendant
string, skip the ones that become empty, join with `sep`. -/
def getTextStrip (sep : Str) (n : Node) : Str :=
  List.intercalate sep (((nodeStrings n).map pyStrip).filter (fun s => s ≠ []))

/-- BeautifulSoup `el.get_text(sep, strip=False)`: join all descendant
strings with `sep`. -/
def getTextRaw (sep : Str) (n : Node) : Str :=
  List.intercalate sep (nodeStrings n)

mutual

/-- Descendants of a node satisfying `p`, in pre-order — BeautifulSoup's
`find_all` (which searches descendants only, not the node itself). -/
def findAllN (p : Node → Bool) : Node → List Node
  | .text _ => []
  | .tag _ _ cs => findAllL p cs

/-- See `findAllN`. -/
def findAllL (p : Node → Bool) : NodeList → List Node
  | .nil => []
  | .cons n t => (if p n then [n] else []) ++ findAllN p n ++ findAllL p t

end

/-- BeautifulSoup `find`: first `find_all` result. -/
def findFirst (p : Node → Bool) (n : Node) : Option Node :=
  (findAllN p n).head?

/-- The script's `JUNK_TAGS` set (line 17). -/
def JUNK_TAGS : List Str := [("script").toList, ("style").toList, ("noscript").toList]

/-- Is this node one of the junk tags removed up front? -/
def isJunk (n : Node) : Bool :=
  match n with
  | .text _ => false
  | .tag name _ _ => name ∈ JUNK_TAGS

mutual

/-- `for t in soup.find_all(list(JUNK_TAGS)): t.decompose()` (lines
80-81): remove every script/style/noscript subtree. -/
def decompose : Node → Node
  | .text s => .text s
  | .tag nm attrs cs => .tag nm attrs (decomposeL cs)

/-- See `decompose`. -/
def decomposeL : NodeList → NodeList
  | .nil => .nil
  | .cons n t => if isJunk n then decomposeL t else .cons (decompose n) (decomposeL t)

end

/-- Does the node's `class` token list contain `tok` (BeautifulSoup's
match for `attrs={"class": tok}` with a single-token query)? -/
def hasClassToken (n : Node) (tok : Str) : Bool :=
  (classTokens n).any (fun t => t = tok)

/-- `pick_main_content` (lines 45-64): `<main>`, then the ordered
fallback container selectors, else the soup itself. -/
def pick_main_content (soup : Node) : Node :=
  match findFirst (fun n => isNamed n (("main").toList)) soup with
  | some m => m
  | none =>
  match findFirst (fun n => isNamed n (("div").toList) && hasClassToken n (("contentContainer").toList)) soup with
  | some m => m
  | none =>
  match findFirst (fun n => isNamed n (("div").toList) && hasClassToken n (("content").toList)) soup with
  | some m => m
  | none =>
  match findFirst (fun n => isNamed n (("div").toList) && (getAttrN n (("id").toList) = some (("content").toList))) soup with
  | some m => m
  | none =>
  match findFirst (fun n => isNamed n (("article").toList)) soup with
  | some m => m
  | none =>
  match findFirst (fun n => isNamed n (("body").toList)) soup with
  | some m => m
  | none => soup

/-- Is the node a `th` or `td` cell? -/
def isCell (n : Node) : Bool :=
  isNamed n (("th").toList) || isNamed n (("td").toList)

/-- `table_to_text` (lines 66-75): one " | "-joined line per `tr` that
has at least one `th`/`td` descendant, lines joined by newlines. -/
def table_to_text (table : Node) : Str :=
  let rows := (findAllN (fun n => isNamed n (("tr").toList)) table).foldl
    (fun rows tr =>
      let cells := (findAllN isCell tr).map (fun c => getTextStrip [' '] c)
      if cells = [] then rows
      else rows ++ [List.intercalate ((" | ").toList) cells]) []
  List.intercalate ['\n'] rows

/-- Class substrings that cause an element to be pruned as navigation
chrome (line 105). -/
def NAV_CLASS_BITS : List Str :=
  [("navbar").toList, ("navlist").toList, ("header").toList, ("footer").toList,
   ("side").toList, ("sidebar").toList, ("indexnav").toList, ("topnav").toList]

/-- Heading names `h1`..`h6`. -/
def HEADINGS : List Str :=
  [("h1").toList, ("h2").toList, ("h3").toList, ("h4").toList, ("h5").toList, ("h6").toList]

/-- Block-level tag names (lines 137-142). -/
def BLOCK_TAGS : List Str :=
  [("p").toList, ("div").toList, ("section").toList, ("article").toList, ("main").toList,
   ("ul").toList, ("ol").toList, ("blockquote").toList,
   ("dl").toList, ("dt").toList, ("dd").toList, ("hr").toList]

mutual

/-- The recursive `walk` of `html_to_text` (lines 91-154), returning the
list of strings `emit` appends to `out`. -/
def walk : Node → List Str
  | .text s => if s = [] then [] else [s]
  | .tag nm attrs cs =>
    let name := lowerStr nm
    if name = ("nav").toList ∨ name = ("header").toList ∨ name = ("footer").toList then []
    else
    let cls := lowerStr (List.intercalate [' '] (match getAttrOf attrs (("class").toList) with
      | none => []
      | some v => splitWs v))
    if NAV_CLASS_BITS.any (fun x => decide (x <:+: cls)) then []
    else if name ∈ JUNK_TAGS then []
    else if name ∈ HEADINGS then
      let level := (name.getD 1 '0').toNat - ('0').toNat
      let heading := getTextStrip [' '] (.tag nm attrs cs)
      [(("\n\n").toList) ++ List.replicate level '#' ++ ' ' :: heading ++ (("\n\n").toList)]
    else if name = ("pre").toList then
      let code := getTextRaw ['\n'] (.tag nm attrs cs)
      [(("\n\n```\n").toList) ++ pyRStrip code ++ (("\n```\n\n").toList)]
    else if name = ("table").toList then
      [(("\n\n").toList) ++ table_to_text (.tag nm attrs cs) ++ (("\n\n").toList)]
    else if name = ("br").toList then [['\n']]
    else if name = ("li").toList then
      let t := getTextStrip [' '] (.tag nm attrs cs)
      if t = [] then [] else [('\n' :: '-' :: ' ' :: t) ++ ['\n']]
    else if name = ("hr").toList then
      [(("\n\n").toList) ++ List.replicate 40 '-' ++ (("\n\n").toList)]
    else if name ∈ BLOCK_TAGS then
      [['\n']] ++ walkList cs ++ [['\n']]
    else walkList cs

/-- See `walk`. -/
def walkList : NodeList → List Str
  | .nil => []
  | .cons n t => walk n ++ walkList t

end

/-- `html_to_text` (lines 77-157): decompose junk tags, select the main
content node, walk it, and normalize the concatenated emissions. -/
def html_to_text (soup : Node) : Str :=
  normalize (List.flatten (walk (pick_main_content (decompose soup))))

/-! ## URL model

Faithful translation of the parts of `urllib.parse` the script uses
(`urlparse`/`urlsplit`, `urljoin`, `urldefrag`), for URLs without the
legacy `;params` component (javadoc URLs never carry one; `urlparse` and
`urlsplit` then agree). -/

/-- Split a list at the first occurrence of `c`: Python
`s.split(c, 1)[0]` / `[1]`. -/
def takeUntilChar (c : Char) (l : Str) : Str := l.takeWhile (fun d => d ≠ c)

/-- The part after the first occurrence of `c` (empty if `c` absent). -/
def dropUntilChar (c : Char) (l : Str) : Str := (l.dropWhile (fun d => d ≠ c)).drop 1

/-- Python `str.split(sep)` for a single-character separator. -/
def splitOnChar (c : Char) : Str → List Str
  | [] => [[]]
  | a :: r =>
    match splitOnChar c r with
    | [] => [[]]
    | s :: ss => if a = c then [] :: s :: ss else (a :: s) :: ss

/-- Characters allowed in a URL scheme (`urllib.parse.scheme_chars`). -/
def schemeChar (c : Char) : Bool :=
  c.isAlpha || c.isDigit || c = '+' || c = '-' || c = '.'

/-- Result of `urlsplit` (no params component). -/
structure UrlParts where
  scheme : Str
  netloc : Str
  path : Str
  query : Str
  fragment : Str
deriving DecidableEq

/-- `urllib.parse.urlsplit(url, defScheme)`: sanitize (strip leading
C0-control/space, drop tab/CR/LF), split off `scheme:`, `//netloc`,
`#fragment` (first), `?query`. -/
def urlsplit (url : Str) (defScheme : Str) : UrlParts :=
  let url := (url.dropWhile (fun c => c.toNat ≤ 0x20)).filter
    (fun c => ¬(c = '\t' ∨ c = '\r' ∨ c = '\n'))
  let pre := takeUntilChar ':' url
  let (scheme, rest) :=
    if pre.length < url.length ∧ pre ≠ [] ∧ (pre.headD 'a').isAlpha ∧ pre.all schemeChar
    then (lowerStr pre, url.drop (pre.length + 1))
    else (defScheme, url)
  let (netloc, rest) :=
    if rest.take 2 = ['/', '/'] then
      let nl := (rest.drop 2).takeWhile (fun c => ¬(c = '/' ∨ c = '?' ∨ c = '#'))
      (nl, rest.drop (2 + nl.length))
    else ([], rest)
  let (rest, fragment) :=
    if '#' ∈ rest then (takeUntilChar '#' rest, dropUntilChar '#' rest) else (rest, [])
  let (path, query) :=
    if '?' ∈ rest then (takeUntilChar '?' rest, dropUntilChar '?' rest) else (rest, [])
  ⟨scheme, netloc, path, query, fragment⟩

/-- `urllib.parse.urlunsplit`. -/
def urlunsplit (u : UrlParts) : Str :=
  let url := u.path
  let url :=
    if u.netloc ≠ [] ∨ (url ≠ [] ∧ url.take 2 = ['/', '/']) then
      ['/', '/'] ++ u.netloc ++ (if url ≠ [] ∧ url.take 1 ≠ ['/'] then '/' :: url else url)
    else url
  let url := if u.scheme ≠ [] then u.scheme ++ ':' :: url else url
  let url := if u.query ≠ [] then url ++ '?' :: u.query else url
  if u.fragment ≠ [] then url ++ '#' :: u.fragment else url

/-- `urllib.parse.uses_relative`. -/
def usesRelative : List Str :=
  [[], ("ftp").toList, ("http").toList, ("gopher").toList, ("nntp").toList,
   ("imap").toList, ("wais").toList, ("file").toList, ("https").toList,
   ("shttp").toList, ("mms").toList, ("prospero").toList, ("rtsp").toList,
   ("rtspu").toList, ("sftp").toList, ("svn").toList, ("svn+ssh").toList,
   ("ws").toList, ("wss").toList]

/-- `urllib.parse.uses_netloc`. -/
def usesNetloc : List Str :=
  [[], ("ftp").toList, ("http").toList, ("gopher").toList, ("nntp").toList,
   ("telnet").toList, ("imap").toList, ("wais").toList, ("file").toList,
   ("mms").toList, ("https").toList, ("shttp").toList, ("snews").toList,
   ("prospero").toList, ("rtsp").toList, ("rtspu").toList, ("rsync").toList,
   ("svn").toList, ("svn+ssh").toList, ("sftp").toList, ("nfs").toList,
   ("git").toList, ("git+ssh").toList, ("ws").toList, ("wss").toList,
   ("itms-services").toList]

/-- `segments[1:-1] = filter(None, segments[1:-1])`: drop empty segments
strictly between the first and the last. -/
def filterMiddle : List Str → List Str
  | [] => []
  | [a] => [a]
  | a :: rest => a :: filterMiddleAux rest
where
  filterMiddleAux : List Str → List Str
  | [] => []
  | [a] => [a]
  | a :: rest => if a = [] then filterMiddleAux rest else a :: filterMiddleAux rest

/-- `urllib.parse.urljoin(base, url)` (RFC 3986-style resolution as
CPython implements it). -/
def urljoin (base url : Str) : Str :=
  if base = [] then url
  else if url = [] then base
  else
    let b := urlsplit base []
    let r := urlsplit url b.scheme
    if r.scheme ≠ b.scheme ∨ r.scheme ∉ usesRelative then url
    else if r.scheme ∈ usesNetloc ∧ r.netloc ≠ [] then urlunsplit r
    else
      let netloc := if r.scheme ∈ usesNetloc then b.netloc else r.netloc
      if r.path = [] then
        urlunsplit ⟨r.scheme, netloc, b.path, (if r.query = [] then b.query else r.query), r.fragment⟩
      else
        let segments :=
          if r.path.take 1 = ['/'] then splitOnChar '/' r.path
          else
            let bp := splitOnChar '/' b.path
            let bp := if bp.getLast? ≠ some [] then bp.dropLast else bp
            filterMiddle (bp ++ splitOnChar '/' r.path)
        let resolved := segments.foldl
          (fun acc seg =>
            if seg = ('.' :: '.' :: []) then acc.dropLast
            else if seg = ['.'] then acc
            else acc ++ [seg]) []
        let resolved :=
          if segments.getLast? = some ('.' :: '.' :: []) ∨ segments.getLast? = some ['.']
          then resolved ++ [[]] else resolved
        let p := List.intercalate ['/'] resolved
        urlunsplit ⟨r.scheme, netloc, (if p = [] then ['/'] else p), r.query, r.fragment⟩

/-- `urllib.parse.urldefrag(url)[0]`: the URL without its fragment
(round-tripped through split/unsplit when a `#` is present). -/
def urldefrag (url : Str) : Str :=
  if '#' ∈ url then
    let p := urlsplit url []
    urlunsplit ⟨p.scheme, p.netloc, p.path, p.query, []⟩
  else url

/-- `SKIP_EXT` (lines 19-24). -/
def SKIP_EXT : List Str :=
  [(".css").toList, (".js").toList, (".png").toList, (".jpg").toList,
   (".jpeg").toList, (".gif").toList, (".svg").toList, (".ico").toList,
   (".woff").toList, (".woff2").toList, (".ttf").toList, (".eot").toList,
   (".zip").toList, (".jar").toList, (".war").toList, (".pdf").toList]

/-- `is_within_root` (lines 33-34): `url.startswith(root)`. -/
def is_within_root (url root : Str) : Bool := root.isPrefixOf url

/-- `should_skip_url` (lines 36-43): the lower-cased `urlparse` path
(query and fragment excluded) ends in one of `SKIP_EXT`. -/
def should_skip_url (url : Str) : Bool :=
  let path := lowerStr (urlsplit url []).path
  SKIP_EXT.any (fun ext => ext.isSuffixOf path)

/-- `extract_links` (lines 174-184): over every `<a>` with an `href`
attribute, strip the value; skip empty, `mailto:` and `javascript:`
targets; resolve against the base URL; drop the fragment; collect into a
set (modelled as a list deduplicated by membership, in first-insertion
order — Python's set iteration order is unspecified, and no claim
depends on it). -/
def extract_links (soup : Node) (baseUrl : Str) : List Str :=
  let anchors := findAllN (fun n => isNamed n (("a").toList) && (getAttrN n (("href").toList)).isSome) soup
  anchors.foldl
    (fun links a =>
      let href := pyStrip ((getAttrN a (("href").toList)).getD [])
      if href = [] ∨ (("mailto:").toList).isPrefixOf href ∨ (("javascript:").toList).isPrefixOf href
      then links
      else
        let absU := urldefrag (urljoin baseUrl href)
        if absU ∈ links then links else links ++ [absU]) []

/-! ## Path model

`pathlib.PurePosixPath` restricted to what `url_to_outpath` uses:
parsing (which drops empty and `.` components and records rootedness),
`name`, `suffix`, `with_suffix` (a `ValueError` becomes `none`) and the
`/` join operator. -/

/-- A pure POSIX path: rootedness flag plus components. -/
structure PPath where
  absolute : Bool
  parts : List Str
deriving DecidableEq

/-- `PurePosixPath(s)` for a string without drive letters: empty and
`.` components are dropped, a leading `/` makes the path absolute.  (The
implementation-defined POSIX `//` double root is collapsed into the
plain root here; no claim involves such a path.) -/
def parsePPath (s : Str) : PPath :=
  ⟨s.take 1 = ['/'], (splitOnChar '/' s).filter (fun t => t ≠ [] ∧ t ≠ ['.'])⟩

/-- `PurePath.name`: the final component (empty for a root or empty
path). -/
def pName (p : PPath) : Str := (p.parts.getLast?).getD []

/-- `PurePath.suffix`: the extension of the final component — the part
from the last dot, provided that dot is neither the first nor the last
character of the name. -/
def pySuffix (name : Str) : Str :=
  if '.' ∈ name then
    let k := (name.reverse.takeWhile (fun c => c ≠ '.')).length
    if 1 ≤ k ∧ k + 2 ≤ name.length then (name.reverse.take (k + 1)).reverse else []
  else []

/-- `PurePath.with_suffix(suffix)`: `none` models the `ValueError`
raised on an invalid suffix or an empty name. -/
def withSuffix (p : PPath) (suffix : Str) : Option PPath :=
  if '/' ∈ suffix then none
  else if suffix ≠ [] ∧ (suffix.take 1 ≠ ['.'] ∨ suffix = ['.']) then none
  else
    let name := pName p
    if name = [] then none
    else
      let old := pySuffix name
      let name2 := if old = [] then name ++ suffix
                   else name.take (name.length - old.length) ++ suffix
      some ⟨p.absolute, p.parts.dropLast ++ [name2]⟩

/-- `PurePath.__truediv__`: `a / b` keeps only `b` when `b` is absolute,
otherwise appends `b`'s components. -/
def pJoin (a b : PPath) : PPath :=
  if b.absolute then b else ⟨a.absolute, a.parts ++ b.parts⟩

/-- `url_to_outpath` (lines 159-172): strip the root prefix, append
`index.html` to empty or `/`-terminated remainders, cut at the first
`?`, rewrite an `.html`/`.htm` suffix to `.txt` (else append `.txt`),
and join under `outdir`.  `none` models the uncaught `ValueError` from
`with_suffix` on an empty name. -/
def url_to_outpath (url root : Str) (outdir : PPath) : Option PPath :=
  let rel := url.drop root.length
  let rel := if rel = [] ∨ rel.getLast? = some '/' then rel ++ ("index.html").toList else rel
  let rel := takeUntilChar '?' rel
  let relPath := parsePPath rel
  let sfx := lowerStr (pySuffix (pName relPath))
  let res :=
    if sfx = (".html").toList ∨ sfx = (".htm").toList
    then withSuffix relPath ((".txt").toList)
    else withSuffix relPath (pySuffix (pName relPath) ++ (".txt").toList)
  res.map (fun rp => pJoin outdir rp)

/-- Normalization of `..` components (POSIX resolution against a
root-anchored component list); the yardstick used to state that a mapped
output path escapes the output directory. -/
def resolveDots (parts : List Str) : List Str :=
  parts.foldl (fun acc seg => if seg = ('.' :: '.' :: []) then acc.dropLast else acc ++ [seg]) []

/-! ## Fetcher model

`fetch` (lines 186-189) issues one GET and calls
`Response.raise_for_status()`, which raises exactly for status codes in
`[400, 600)`; network errors and timeouts raise inside `session.get`.
The HTTP interaction itself is abstracted as an outcome value. -/

/-- Outcome of `session.get`: an exception, or a response that carries a
final status code and body. -/
inductive HttpOutcome where
  | netError
  | timeout
  | response (status : Nat) (body : Str)
deriving DecidableEq

/-- Result of `fetch`: the body, or any raised exception. -/
inductive FetchResult where
  | fetchError
  | ok (body : Str)
deriving DecidableEq

/-- `requests.Response.raise_for_status` raises iff the status is a 4xx
or 5xx code. -/
def raiseForStatus (status : Nat) : Bool := 400 ≤ status && status < 600

/-- `fetch` (lines 186-189). -/
def fetch (o : HttpOutcome) : FetchResult :=
  match o with
  | .netError => .fetchError
  | .timeout => .fetchError
  | .response s b => if raiseForStatus s then .fetchError else .ok b

/-! ## Crawl loop model

The `while` loop of `main` (lines 217-250).  The network plus the HTML
parser are abstracted as `world : Str → Option Node` — `none` when
`fetch` raises (caught at lines 232-234), `some doc` for a successfully
fetched and parsed page.  The state carries the queue, the visited set,
the saved count, and event logs: `fetched` records each URL passed to
`fetch` together with the value of `saved` at that moment, `written`
records each `(url, outpath)` file write.  The uncaught `ValueError`
that `url_to_outpath` can raise aborts the program; this is modelled by
the `crashed` flag, which ends the recursion with the remaining state. -/

structure CrawlState where
  q : List Str
  seen : List Str
  saved : Nat
  fetched : List (Str × Nat)
  written : List (Str × PPath)
  crashed : Bool
deriving DecidableEq

/-- The crawl loop (lines 217-250 of `main`). -/
def crawlLoop (world : Str → Option Node) (root : Str) (maxPages : Nat)
    (outdir : PPath) (s : CrawlState) : CrawlState :=
  match hq : s.q with
  | [] => s
  | url :: rest =>
    if hs : s.saved < maxPages then
      if url ∈ s.seen then
        crawlLoop world root maxPages outdir { s with q := rest }
      else
        let s1 : CrawlState := { s with q := rest, seen := url :: s.seen }
        if ¬ is_within_root url root then crawlLoop world root maxPages outdir s1
        else if should_skip_url url then crawlLoop world root maxPages outdir s1
        else
          match world url with
          | none =>
            crawlLoop world root maxPages outdir
              { s1 with fetched := s1.fetched ++ [(url, s.saved)] }
          | some doc =>
            match url_to_outpath url root outdir with
            | none =>
              { s1 with fetched := s1.fetched ++ [(url, s.saved)], crashed := true }
            | some outpath =>
              let s2 : CrawlState :=
                { s1 with
                  fetched := s1.fetched ++ [(url, s.saved)],
                  written := s1.written ++ [(url, outpath)],
                  saved := s.saved + 1 }
              let links := (extract_links doc url).filter
                (fun link => link ∉ s2.seen && is_within_root link root && !should_skip_url link)
              crawlLoop world root maxPages outdir { s2 with q := s2.q ++ links }
    else s
termination_by (maxPages - s.saved, s.q.length)
decreasing_by
  all_goals simp_all
  all_goals first
    | (right; constructor <;> simp [hq])
    | (left; omega)

/-- Initial crawl state: `q = deque([start])`, nothing seen or saved. -/
def initState (start : Str) : CrawlState := ⟨[start], [], 0, [], [], false⟩

/-! ## Concrete scenario: a crawl run aborted by `url_to_outpath`

A two-page world in which the start page links both to a URL whose
root-relative remainder is a bare query string (on which
`url_to_outpath` raises `ValueError`) and to an ordinary page.  The
second iteration crashes while the queue is still non-empty and the
page budget is not exhausted. -/

def cexRoot : Str := ("https://s/r/").toList

def cexStart : Str := ("https://s/r/p.html").toList

def cexUrlBad : Str := ("https://s/r/?x=1").toList

def cexUrlOk : Str := ("https://s/r/a.html").toList

def cexLinkPage : Node :=
  elem "[document]" []
    [elem "a" [("href", "https://s/r/?x=1")] [],
     elem "a" [("href", "https://s/r/a.html")] []]

def cexEmptyPage : Node := elem "[document]" [] []

def cexWorld (u : Str) : Option Node :=
  if u = cexStart then some cexLinkPage
  else if u = cexUrlBad then some cexEmptyPage
  else none

def cexOutdir : PPath := ⟨true, [("out").toList]⟩

/-- The final state of the aborted run. -/
def cexFinal : CrawlState :=
  crawlLoop cexWorld cexRoot 10 cexOutdir (initState cexStart)

/-! ## Claim-side formulations

Definitions below restate properties in the words of the specification,
to be compared against the translated code. -/

/-- Does the string avoid starting with a whitespace character? -/
def noLeadingWs (l : Str) : Bool :=
  match l.head? with
  | some c => !(isPyWs c)
  | none => true

/-- Does the string end with exactly one newline (a final newline not
preceded by another newline)? -/
def endsOneNl (l : Str) : Bool :=
  decide (l.getLast? = some '\n') && decide (l.dropLast.getLast? ≠ some '\n')

/-- Whitespace-only document: the transduced text strips to nothing. -/
def c5Doc : Node := elem ("[document]") [] [txt (" ")]

/-- The `th`/`td` texts of one row, as the spec words it. -/
def rowCells (tr : Node) : List Str :=
  (findAllN isCell tr).map (fun c => getTextStrip [' '] c)

/-- Spec-side table rendering: one " | "-joined line per row with at
least one cell. -/
def tableRowLines (t : Node) : List Str :=
  (findAllN (fun n => isNamed n (("tr").toList)) t).filterMap
    (fun tr => if rowCells tr = [] then none
      else some (List.intercalate ((" | ").toList) (rowCells tr)))

/-- The spec's example table. -/
def exTable : Node :=
  elem ("table") []
    [elem ("tr") [] [elem ("th") [] [txt ("A")], elem ("th") [] [txt ("B")]],
     elem ("tr") [] [elem ("td") [] [txt ("1")], elem ("td") [] [txt ("2")]]]

/-- A table with a cell-less first row. -/
def c7Rowless : Node :=
  elem ("table") []
    [elem ("tr") [] [], elem ("tr") [] [elem ("td") [] [txt ("x")]]]

/-- The trimmed `href` of an anchor if the link extractor keeps it
(non-empty after trimming, no mail-to or script pseudo-protocol). -/
def keptHref (a : Node) : Option Str :=
  let href := pyStrip ((getAttrN a (("href").toList)).getD [])
  if href = [] ∨ (("mailto:").toList).isPrefixOf href ∨ (("javascript:").toList).isPrefixOf href
  then none else some href

/-- Spec-side link list: each kept anchor target resolved against the
base URL with the fragment stripped, in document order, duplicates
retained. -/
def linkTargets (soup : Node) (base : Str) : List Str :=
  (((findAllN (fun n => isNamed n (("a").toList) && (getAttrN n (("href").toList)).isSome) soup).filterMap
    keptHref).map (fun h => urldefrag (urljoin base h)))

/-- Fold a list into an accumulator keeping first occurrences only
(Python set insertion, exposed in first-insertion order). -/
def setAddAll (acc : List Str) (ts : List Str) : List Str :=
  ts.foldl (fun ls u => if u ∈ ls then ls else ls ++ [u]) acc

/-- The spec's link-extraction example page: one parent-relative anchor
with a fragment. -/
def c8Doc : Node :=
  elem ("[document]") [] [elem ("a") [("href", "../x/y.html#frag")] [txt ("l")]]

/-- Two anchors differing only in their fragment. -/
def c8FragDoc : Node :=
  elem ("[document]") []
    [elem ("a") [("href", "p.html#a")] [], elem ("a") [("href", "p.html#b")] []]

/-- The remainder after the `index.html`-appending step of
`url_to_outpath`. -/
def relAfterIndex (rel : Str) : Str :=
  if rel = [] ∨ rel.getLast? = some '/' then rel ++ ("index.html").toList else rel

/-- The remainder after index-appending and query-stripping. -/
def relBase (rel : Str) : Str := takeUntilChar '?' (relAfterIndex rel)

/-- The filename component `url_to_outpath` operates on. -/
def relName (rel : Str) : Str := pName (parsePPath (relBase rel))

/-- The spec's account of the final filename: an `.html`/`.htm`
extension (case-insensitive) is replaced by `.txt`; any other (or
absent) extension has `.txt` appended to the whole name. -/
def mappedName (rel : Str) : Str :=
  let name := relName rel
  let sfx := pySuffix name
  if lowerStr sfx = (".html").toList ∨ lowerStr sfx = (".htm").toList
  then name.take (name.length - sfx.length) ++ (".txt").toList
  else name ++ (".txt").toList

/-! # Theorems -/

/-! ## Properties of `normalize` (claims C4, C5) -/

theorem chainOfInfix {R : Char → Char → Prop} {u l : Str}
    (h : List.Chain' R l) (hu : u <:+: l) : List.Chain' R u :=
  List.Chain'.infix h hu

theorem mem_crlf2nl {c : Char} : ∀ {l : Str}, c ∈ crlf2nl l → c = '\n' ∨ c ∈ l
  | [], h => by simpa [crlf2nl] using h
  | [a], h => by
    simp only [crlf2nl, List.mem_singleton] at h
    exact Or.inr (by simp [h])
  | a :: b :: r, h => by
    rw [crlf2nl] at h
    by_cases hab : a = '\r' ∧ b = '\n'
    · rw [if_pos hab] at h
      rcases List.mem_cons.1 h with h1 | h2
      · exact Or.inl h1
      · rcases mem_crlf2nl h2 with h3 | h4
        · exact Or.inl h3
        · exact Or.inr (by simp [h4])
    · rw [if_neg hab] at h
      rcases List.mem_cons.1 h with h1 | h2
      · exact Or.inr (by simp [h1])
      · rcases mem_crlf2nl h2 with h3 | h4
        · exact Or.inl h3
        · exact Or.inr (by simpa using Or.inr h4)

theorem crlf2nl_id : ∀ {l : Str}, (∀ c ∈ l, c ≠ '\r') → crlf2nl l = l
  | [], _ => rfl
  | [a], _ => rfl
  | a :: b :: r, h => by
    rw [crlf2nl, if_neg, crlf2nl_id (fun c hc => h c (List.mem_cons_of_mem a hc))]
    rintro ⟨ha, -⟩
    exact h a (by simp) ha

theorem not_cr_mem_cr2nl {c : Char} {l : Str} (h : c ∈ cr2nl l) : c ≠ '\r' := by
  rcases List.mem_map.1 h with ⟨d, -, hd⟩
  intro hc
  subst hc
  by_cases hdr : d = '\r' <;> simp [hdr] at hd

theorem mem_cr2nl {c : Char} {l : Str} (h : c ∈ cr2nl l) : c = '\n' ∨ c ∈ l := by
  rcases List.mem_map.1 h with ⟨d, hdm, hd⟩
  by_cases hdr : d = '\r'
  · simp [hdr] at hd
    exact Or.inl hd.symm
  · simp [hdr] at hd
    subst hd
    exact (mem_crlf2nl hdm).imp id id

theorem map_derc_id : ∀ {l : Str}, (∀ c ∈ l, c ≠ '\r') →
    l.map (fun c => if c = '\r' then '\n' else c) = l
  | [], _ => rfl
  | a :: r, h => by
    simp only [List.map_cons]
    rw [if_neg (h a (by simp)), map_derc_id (fun c hc => h c (by simp [hc]))]

theorem cr2nl_id {l : Str} (h : ∀ c ∈ l, c ≠ '\r') : cr2nl l = l := by
  rw [cr2nl, crlf2nl_id h, map_derc_id h]

theorem mem_squashSpacesAux {c : Char} :
    ∀ {l : Str} {b : Bool}, c ∈ squashSpacesAux b l → c = ' ' ∨ (c ∈ l ∧ isHT c = false)
  | [], b, h => by simp [squashSpacesAux] at h
  | a :: r, b, h => by
    rw [squashSpacesAux] at h
    by_cases ha : isHT a
    · rw [if_pos ha] at h
      by_cases hb : b
      · subst hb
        simp only [if_pos rfl] at h
        rcases mem_squashSpacesAux h with h1 | ⟨h2, h3⟩
        · exact Or.inl h1
        · exact Or.inr ⟨List.mem_cons_of_mem a h2, h3⟩
      · simp only [Bool.not_eq_true] at hb
        subst hb
        simp only [Bool.false_eq_true, if_neg] at h
        rcases List.mem_cons.1 h with h1 | h2
        · exact Or.inl h1
        · rcases mem_squashSpacesAux h2 with h1 | ⟨h2, h3⟩
          · exact Or.inl h1
          · exact Or.inr ⟨List.mem_cons_of_mem a h2, h3⟩
    · rw [if_neg ha] at h
      rcases List.mem_cons.1 h with h1 | h2
      · subst h1
        exact Or.inr ⟨List.mem_cons_self _ _, by simpa using ha⟩
      · rcases mem_squashSpacesAux h2 with h1 | ⟨h2', h3⟩
        · exact Or.inl h1
        · exact Or.inr ⟨List.mem_cons_of_mem a h2', h3⟩

theorem head_squashSpacesAux_true :
    ∀ {l : Str}, (squashSpacesAux true l).head? ≠ some ' '
  | [] => by simp [squashSpacesAux]
  | a :: r => by
    rw [squashSpacesAux]
    by_cases ha : isHT a
    · rw [if_pos ha]
      simpa using head_squashSpacesAux_true (l := r)
    · rw [if_neg ha]
      simp only [List.head?_cons, ne_eq, Option.some.injEq]
      intro hc
      subst hc
      simp [isHT] at ha

theorem noDbl_squashSpacesAux : ∀ {l : Str} {b : Bool}, noDblSp (squashSpacesAux b l)
  | [], b => by simp [squashSpacesAux, noDblSp]
  | a :: r, b => by
    rw [squashSpacesAux]
    by_cases ha : isHT a
    · rw [if_pos ha]
      cases b
      · rw [if_neg Bool.false_ne_true]
        rw [noDblSp, List.chain'_cons']
        refine ⟨fun y hy => ?_, noDbl_squashSpacesAux⟩
        rintro ⟨-, hy'⟩
        subst hy'
        exact head_squashSpacesAux_true hy
      · rw [if_pos rfl]
        exact noDbl_squashSpacesAux
    · rw [if_neg ha]
      rw [noDblSp, List.chain'_cons']
      refine ⟨fun y hy => ?_, noDbl_squashSpacesAux⟩
      rintro ⟨ha', -⟩
      subst ha'
      simp [isHT] at ha

theorem squashSpacesAux_id :
    ∀ {l : Str} {b : Bool}, '\t' ∉ l → noDblSp l → (b = true → l.head? ≠ some ' ') →
      squashSpacesAux b l = l
  | [], b, _, _, _ => by simp [squashSpacesAux]
  | a :: r, b, ht, hd, hb => by
    rw [squashSpacesAux]
    by_cases ha : isHT a
    · have ha' : a = ' ' := by
        have := ha
        simp only [isHT, Bool.or_eq_true, decide_eq_true_eq] at this
        rcases this with h | h
        · exact h
        · exact absurd h (fun he => ht (by simp [he]))
      subst ha'
      have hb' : b = false := by
        cases b
        · rfl
        · exact absurd (hb rfl) (by simp)
      subst hb'
      rw [if_pos ha, if_neg Bool.false_ne_true]
      congr 1
      have hr : r.head? ≠ some ' ' := by
        intro hr'
        rcases r with - | ⟨x, r'⟩
        · simp at hr'
        · simp only [List.head?_cons, Option.some.injEq] at hr'
          subst hr'
          rw [noDblSp, List.chain'_cons] at hd
          exact hd.1 ⟨rfl, rfl⟩
      exact squashSpacesAux_id (fun hm => ht (List.mem_cons_of_mem _ hm))
        ((List.chain'_cons'.1 hd).2) (fun _ => hr)
    · rw [if_neg ha]
      congr 1
      exact squashSpacesAux_id (fun hm => ht (List.mem_cons_of_mem _ hm))
        ((List.chain'_cons'.1 hd).2) (by simp)

theorem mem_trimNlAux {c : Char} :
    ∀ {l : Str} {p : Bool} {b : Nat}, c ∈ trimNlAux p b l → c = ' ' ∨ c = '\n' ∨ c ∈ l
  | [], p, b, h => by
    rw [trimNlAux] at h
    cases p
    · simp only [Bool.false_eq_true, if_neg] at h
      exact Or.inl (List.eq_of_mem_replicate h)
    · simp at h
  | a :: r, p, b, h => by
    rw [trimNlAux] at h
    by_cases ha : a = ' '
    · rw [if_pos ha] at h
      rcases mem_trimNlAux h with h1 | h2 | h3
      · exact Or.inl h1
      · exact Or.inr (Or.inl h2)
      · exact Or.inr (Or.inr (List.mem_cons_of_mem a h3))
    · rw [if_neg ha] at h
      by_cases ha2 : a = '\n'
      · rw [if_pos ha2] at h
        rcases List.mem_cons.1 h with h1 | h2
        · exact Or.inr (Or.inl h1)
        · rcases mem_trimNlAux h2 with h1 | h2 | h3
          · exact Or.inl h1
          · exact Or.inr (Or.inl h2)
          · exact Or.inr (Or.inr (List.mem_cons_of_mem a h3))
      · rw [if_neg ha2] at h
        rcases List.mem_append.1 h with h1 | h2
        · cases p
          · simp only [Bool.false_eq_true, if_neg] at h1
            exact Or.inl (List.eq_of_mem_replicate h1)
          · simp at h1
        · rcases List.mem_cons.1 h2 with h1 | h3
          · exact Or.inr (Or.inr (by simp [h1]))
          · rcases mem_trimNlAux h3 with h1 | h2' | h3'
            · exact Or.inl h1
            · exact Or.inr (Or.inl h2')
            · exact Or.inr (Or.inr (List.mem_cons_of_mem a h3'))

theorem head_trimNlAux_true :
    ∀ {l : Str} {b : Nat}, (trimNlAux true b l).head? ≠ some ' '
  | [], b => by simp [trimNlAux]
  | a :: r, b => by
    rw [trimNlAux]
    by_cases ha : a = ' '
    · rw [if_pos ha]
      exact head_trimNlAux_true
    · rw [if_neg ha]
      by_cases ha2 : a = '\n'
      · rw [if_pos ha2]
        simp
      · rw [if_neg ha2]
        simpa using ha

theorem noSpNl_trimNlAux : ∀ {l : Str} {p : Bool} {b : Nat}, noPairSpNl (trimNlAux p b l)
  | [], p, b => by
    rw [trimNlAux]
    cases p
    · rw [if_neg Bool.false_ne_true]
      exact List.chain'_replicate_of_rel b (by simp)
    · rw [if_pos rfl]
      exact List.chain'_nil
  | a :: r, p, b => by
    rw [trimNlAux]
    by_cases ha : a = ' '
    · rw [if_pos ha]
      exact noSpNl_trimNlAux
    · rw [if_neg ha]
      by_cases ha2 : a = '\n'
      · rw [if_pos ha2]
        rw [noPairSpNl, List.chain'_cons']
        refine ⟨fun y hy => ?_, noSpNl_trimNlAux⟩
        rintro (⟨h1, -⟩ | ⟨-, h2⟩)
        · exact absurd h1 (by decide)
        · subst h2
          exact head_trimNlAux_true hy
      · rw [if_neg ha2]
        rw [noPairSpNl]
        rw [List.chain'_append]
        refine ⟨?_, ?_, ?_⟩
        · cases p
          · rw [if_neg Bool.false_ne_true]
            exact List.chain'_replicate_of_rel b (by simp)
          · rw [if_pos rfl]
            exact List.chain'_nil
        · rw [List.chain'_cons']
          refine ⟨fun y hy => ?_, noSpNl_trimNlAux⟩
          rintro (⟨h1, -⟩ | ⟨h1, -⟩) <;> exact absurd h1 (by assumption)
        · intro x hx y hy
          have hx' : x = ' ' := by
            cases p
            · rw [if_neg Bool.false_ne_true] at hx
              rw [List.getLast?_replicate] at hx
              by_cases hb : b = 0
              · simp [hb] at hx
              · simp only [Option.mem_def, if_neg hb, Option.some.injEq] at hx
                exact hx.symm
            · rw [if_pos rfl] at hx
              simp at hx
          subst hx'
          simp only [List.head?_cons, Option.mem_def, Option.some.injEq] at hy
          subst hy
          rintro (⟨-, h2⟩ | ⟨h1, -⟩)
          · exact ha2 h2
          · exact absurd h1 (by decide)

theorem noDbl_trimNlAux :
    ∀ {l : Str} {p : Bool} {b : Nat}, noDblSp (List.replicate b ' ' ++ l) →
      noDblSp (trimNlAux p b l)
  | [], p, b, hd => by
    rw [trimNlAux]
    cases p
    · rw [if_neg Bool.false_ne_true]
      simpa using hd
    · rw [if_pos rfl]
      exact List.chain'_nil
  | a :: r, p, b, hd => by
    have hdr : noDblSp r :=
      chainOfInfix hd ⟨List.replicate b ' ' ++ [a], [], by simp⟩
    rw [trimNlAux]
    by_cases ha : a = ' '
    · rw [if_pos ha]
      refine noDbl_trimNlAux ?_
      have : List.replicate b ' ' ++ a :: r = List.replicate (b + 1) ' ' ++ r := by
        subst ha
        rw [List.replicate_succ' b ' ']
        simp
      rwa [this] at hd
    · rw [if_neg ha]
      by_cases ha2 : a = '\n'
      · rw [if_pos ha2]
        rw [noDblSp, List.chain'_cons']
        refine ⟨fun y hy => ?_, noDbl_trimNlAux (by simpa using hdr)⟩
        rintro ⟨h1, -⟩
        exact absurd h1 (by decide)
      · rw [if_neg ha2]
        rw [noDblSp, List.chain'_append]
        refine ⟨?_, ?_, ?_⟩
        · cases p
          · rw [if_neg Bool.false_ne_true]
            exact chainOfInfix hd ⟨[], a :: r, by simp⟩
          · rw [if_pos rfl]
            exact List.chain'_nil
        · rw [List.chain'_cons']
          refine ⟨fun y hy => ?_, noDbl_trimNlAux (by simpa using hdr)⟩
          rintro ⟨h1, -⟩
          exact ha h1
        · intro x hx y hy
          simp only [List.head?_cons, Option.mem_def, Option.some.injEq] at hy
          subst hy
          rintro ⟨-, h2⟩
          exact ha h2

theorem trimNlAux_id :
    ∀ {l : Str} {p : Bool} {b : Nat}, noPairSpNl (List.replicate b ' ' ++ l) →
      (p = true → b = 0 ∧ l.head? ≠ some ' ') →
      trimNlAux p b l = List.replicate b ' ' ++ l
  | [], p, b, h, hp => by
    rw [trimNlAux]
    cases p
    · rw [if_neg Bool.false_ne_true]
      simp
    · rw [if_pos rfl, (hp rfl).1]
      simp
  | a :: r, p, b, h, hp => by
    have hsuf : noPairSpNl r :=
      chainOfInfix h ⟨List.replicate b ' ' ++ [a], [], by simp⟩
    rw [trimNlAux]
    by_cases ha : a = ' '
    · have hpv : p = false := by
        cases p
        · rfl
        · exact absurd (hp rfl).2 (by simp [ha])
      subst hpv
      rw [if_pos ha]
      have hrw : List.replicate b ' ' ++ a :: r = List.replicate (b + 1) ' ' ++ r := by
        subst ha
        rw [List.replicate_succ' b ' ']
        simp
      rw [trimNlAux_id (by rwa [hrw] at h) (by simp), hrw]
    · rw [if_neg ha]
      by_cases ha2 : a = '\n'
      · subst ha2
        rw [if_pos rfl]
        have hb0 : b = 0 := by
          by_contra hb
          rcases Nat.exists_eq_succ_of_ne_zero hb with ⟨b', rfl⟩
          have h2 : List.Chain' (fun a b => ¬((a = ' ' ∧ b = '\n') ∨ (a = '\n' ∧ b = ' ')))
              (List.replicate (b' + 1) ' ' ++ '\n' :: r) := h
          have h3 := (List.chain'_append.1 h2).2.2
          have hx := h3 ' ' (by simp [List.getLast?_replicate]) '\n' (by simp)
          exact hx (Or.inl ⟨rfl, rfl⟩)
        subst hb0
        have hhd : r.head? ≠ some ' ' := by
          intro hr'
          rw [List.replicate_zero, List.nil_append] at h
          exact (List.chain'_cons'.1 h).1 ' ' hr' (Or.inr ⟨rfl, rfl⟩)
        rw [trimNlAux_id (by simpa using hsuf) (fun _ => ⟨rfl, hhd⟩)]
        simp
      · rw [if_neg ha2]
        cases p
        · rw [if_neg Bool.false_ne_true]
          rw [trimNlAux_id (by simpa using hsuf) (by simp)]
          simp
        · rw [if_pos rfl, (hp rfl).1]
          rw [trimNlAux_id (by simpa using hsuf) (by simp)]
          simp

theorem mem_emitNl {c : Char} {k : Nat} (h : c ∈ emitNl k) : c = '\n' := by
  rw [emitNl] at h
  by_cases hk : 3 ≤ k
  · rw [if_pos hk] at h
    simpa using h
  · rw [if_neg hk] at h
    exact List.eq_of_mem_replicate h

theorem emitNl_eq_rep {k : Nat} (h : ¬3 ≤ k) : emitNl k = List.replicate k '\n' := by
  rw [emitNl, if_neg h]

theorem emitNl_shape (k : Nat) :
    emitNl k = [] ∨ emitNl k = ['\n'] ∨ emitNl k = ['\n', '\n'] := by
  rw [emitNl]
  by_cases hk : 3 ≤ k
  · rw [if_pos hk]
    simp
  · rw [if_neg hk]
    interval_cases k <;> simp [List.replicate]

theorem mem_squashNlAux {c : Char} :
    ∀ {l : Str} {k : Nat}, c ∈ squashNlAux k l → c = '\n' ∨ c ∈ l
  | [], k, h => by
    rw [squashNlAux] at h
    exact Or.inl (mem_emitNl h)
  | a :: r, k, h => by
    rw [squashNlAux] at h
    by_cases ha : a = '\n'
    · rw [if_pos ha] at h
      rcases mem_squashNlAux h with h1 | h2
      · exact Or.inl h1
      · exact Or.inr (List.mem_cons_of_mem a h2)
    · rw [if_neg ha] at h
      rcases List.mem_append.1 h with h1 | h2
      · exact Or.inl (mem_emitNl h1)
      · rcases List.mem_cons.1 h2 with h1 | h3
        · exact Or.inr (by simp [h1])
        · rcases mem_squashNlAux h3 with h1 | h2'
          · exact Or.inl h1
          · exact Or.inr (List.mem_cons_of_mem a h2')

theorem head_squashNlAux_pos :
    ∀ {l : Str} {k : Nat}, 1 ≤ k → (squashNlAux k l).head? = some '\n'
  | [], k, hk => by
    rw [squashNlAux, emitNl]
    by_cases h3 : 3 ≤ k
    · rw [if_pos h3]
      rfl
    · rw [if_neg h3]
      rcases Nat.exists_eq_succ_of_ne_zero (by omega : k ≠ 0) with ⟨k', rfl⟩
      simp [List.replicate]
  | a :: r, k, hk => by
    rw [squashNlAux]
    by_cases ha : a = '\n'
    · rw [if_pos ha]
      exact head_squashNlAux_pos (by omega)
    · rw [if_neg ha]
      rw [emitNl]
      by_cases h3 : 3 ≤ k
      · rw [if_pos h3]
        rfl
      · rw [if_neg h3]
        rcases Nat.exists_eq_succ_of_ne_zero (by omega : k ≠ 0) with ⟨k', rfl⟩
        simp [List.replicate_succ]

theorem head_squashNlAux_zero {l : Str} : (squashNlAux 0 l).head? = l.head? := by
  rcases l with - | ⟨a, r⟩
  · simp [squashNlAux, emitNl, List.replicate]
  · rw [squashNlAux]
    by_cases ha : a = '\n'
    · rw [if_pos ha, ha]
      exact head_squashNlAux_pos (by omega)
    · rw [if_neg ha]
      have : emitNl 0 = [] := by simp [emitNl, List.replicate]
      rw [this]
      rfl

theorem noTripleNl_mono {u l : Str} (h : noTripleNl l) (hu : u <:+: l) : noTripleNl u :=
  fun hin => h (hin.trans hu)

theorem noTripleNl_cons {c : Char} {t : Str} (hc : c ≠ '\n') (ht : noTripleNl t) :
    noTripleNl (c :: t) := by
  intro hin
  rcases List.infix_cons_iff.1 hin with h1 | h2
  · rw [List.cons_prefix_cons] at h1
    exact hc h1.1.symm
  · exact ht h2

theorem noTripleNl_nl_cons {c : Char} {t : Str} (hc : c ≠ '\n')
    (ht : noTripleNl (c :: t)) : noTripleNl ('\n' :: c :: t) := by
  intro hin
  rcases List.infix_cons_iff.1 hin with h1 | h2
  · rw [List.cons_prefix_cons, List.cons_prefix_cons] at h1
    exact hc h1.2.1.symm
  · exact ht h2

theorem noTripleNl_nl_nl_cons {c : Char} {t : Str} (hc : c ≠ '\n')
    (ht : noTripleNl ('\n' :: c :: t)) : noTripleNl ('\n' :: '\n' :: c :: t) := by
  intro hin
  rcases List.infix_cons_iff.1 hin with h1 | h2
  · rw [List.cons_prefix_cons, List.cons_prefix_cons, List.cons_prefix_cons] at h1
    exact hc h1.2.2.1.symm
  · exact ht h2

theorem noTriple_squashNlAux : ∀ {l : Str} {k : Nat}, noTripleNl (squashNlAux k l)
  | [], k => by
    rw [squashNlAux]
    rcases emitNl_shape k with h | h | h <;> rw [h] <;> decide
  | a :: r, k => by
    rw [squashNlAux]
    by_cases ha : a = '\n'
    · rw [if_pos ha]
      exact noTriple_squashNlAux
    · rw [if_neg ha]
      have base : noTripleNl (a :: squashNlAux 0 r) :=
        noTripleNl_cons ha noTriple_squashNlAux
      rcases emitNl_shape k with h | h | h <;> rw [h]
      · simpa using base
      · simpa using noTripleNl_nl_cons ha base
      · simpa using noTripleNl_nl_nl_cons ha (noTripleNl_nl_cons ha base)

theorem noSpNl_squashNlAux :
    ∀ {l : Str} {k : Nat}, noPairSpNl (List.replicate k '\n' ++ l) →
      noPairSpNl (squashNlAux k l)
  | [], k, h => by
    rw [squashNlAux]
    rcases emitNl_shape k with hs | hs | hs <;> rw [hs] <;> simp [noPairSpNl]
  | a :: r, k, h => by
    rw [squashNlAux]
    by_cases ha : a = '\n'
    · rw [if_pos ha]
      refine noSpNl_squashNlAux ?_
      have : List.replicate k '\n' ++ a :: r = List.replicate (k + 1) '\n' ++ r := by
        subst ha
        rw [List.replicate_succ' k '\n']
        simp
      rwa [this] at h
    · rw [if_neg ha]
      have hsuf : noPairSpNl r := chainOfInfix h ⟨List.replicate k '\n' ++ [a], [], by simp⟩
      have hpair : ∀ y, r.head? = some y → ¬((a = ' ' ∧ y = '\n') ∨ (a = '\n' ∧ y = ' ')) := by
        intro y hy
        have h2 : noPairSpNl (a :: r) := chainOfInfix h ⟨List.replicate k '\n', [], by simp⟩
        exact (List.chain'_cons'.1 h2).1 y hy
      have hcons : noPairSpNl (a :: squashNlAux 0 r) := by
        rw [noPairSpNl, List.chain'_cons']
        refine ⟨fun y hy => ?_, noSpNl_squashNlAux (by simpa using hsuf)⟩
        rw [head_squashNlAux_zero] at hy
        exact hpair y hy
      have hansp : a ≠ ' ' ∨ k = 0 := by
        by_cases hk : k = 0
        · exact Or.inr hk
        · left
          intro haw
          rcases Nat.exists_eq_succ_of_ne_zero hk with ⟨k', rfl⟩
          have h2 : List.Chain' (fun a b => ¬((a = ' ' ∧ b = '\n') ∨ (a = '\n' ∧ b = ' ')))
              (List.replicate (k' + 1) '\n' ++ a :: r) := h
          have h3 := (List.chain'_append.1 h2).2.2
          exact h3 '\n' (by simp [List.getLast?_replicate]) a (by simp)
            (Or.inr ⟨rfl, haw⟩)
      have hknz : emitNl k ≠ [] → a ≠ ' ' := by
        intro hne
        rcases hansp with h3 | h3
        · exact h3
        · rw [emitNl, if_neg (by omega), h3] at hne
          simp [List.replicate] at hne
      rcases emitNl_shape k with hs | hs | hs <;> rw [hs]
      · simpa using hcons
      · rw [List.singleton_append, noPairSpNl, List.chain'_cons']
        refine ⟨fun y hy => ?_, hcons⟩
        simp only [List.head?_cons, Option.mem_def, Option.some.injEq] at hy
        subst hy
        rintro (⟨h1, -⟩ | ⟨-, h2⟩)
        · exact absurd h1 (by decide)
        · exact hknz (by rw [hs]; simp) h2
      · rw [List.cons_append, List.singleton_append, noPairSpNl, List.chain'_cons',
          List.chain'_cons']
        refine ⟨by simp, fun y hy => ?_, hcons⟩
        simp only [List.head?_cons, Option.mem_def, Option.some.injEq] at hy
        subst hy
        rintro (⟨h1, -⟩ | ⟨-, h2⟩)
        · exact absurd h1 (by decide)
        · exact hknz (by rw [hs]; simp) h2

theorem noDbl_squashNlAux :
    ∀ {l : Str} {k : Nat}, noDblSp l → noDblSp (squashNlAux k l)
  | [], k, _ => by
    rw [squashNlAux]
    rcases emitNl_shape k with hs | hs | hs <;> rw [hs] <;> simp [noDblSp]
  | a :: r, k, h => by
    rw [squashNlAux]
    have hsuf : noDblSp r := (List.chain'_cons'.1 h).2
    by_cases ha : a = '\n'
    · rw [if_pos ha]
      exact noDbl_squashNlAux hsuf
    · rw [if_neg ha]
      have hcons : noDblSp (a :: squashNlAux 0 r) := by
        rw [noDblSp, List.chain'_cons']
        refine ⟨fun y hy => ?_, noDbl_squashNlAux hsuf⟩
        rw [head_squashNlAux_zero] at hy
        exact (List.chain'_cons'.1 h).1 y hy
      rcases emitNl_shape k with hs | hs | hs <;> rw [hs]
      · simpa using hcons
      · rw [List.singleton_append, noDblSp, List.chain'_cons']
        refine ⟨fun y hy => ?_, hcons⟩
        rintro ⟨h1, -⟩
        exact absurd h1 (by decide)
      · rw [List.cons_append, List.singleton_append, noDblSp, List.chain'_cons',
          List.chain'_cons']
        refine ⟨by simp, fun y hy => ?_, hcons⟩
        rintro ⟨h1, -⟩
        exact absurd h1 (by decide)

theorem triple_of_le {k : Nat} (hk : 3 ≤ k) (t : Str) :
    ['\n', '\n', '\n'] <:+: List.replicate k '\n' ++ t := by
  have : List.replicate k '\n' = List.replicate 3 '\n' ++ List.replicate (k - 3) '\n' := by
    rw [← List.replicate_add]
    congr 1
    omega
  rw [this]
  exact List.IsPrefix.isInfix ⟨List.replicate (k - 3) '\n' ++ t, by simp⟩

theorem squashNlAux_id :
    ∀ {l : Str} {k : Nat}, noTripleNl (List.replicate k '\n' ++ l) →
      squashNlAux k l = List.replicate k '\n' ++ l
  | [], k, h => by
    rw [squashNlAux, emitNl_eq_rep (fun h3 => h (triple_of_le h3 []))]
    simp
  | a :: r, k, h => by
    rw [squashNlAux]
    by_cases ha : a = '\n'
    · rw [if_pos ha]
      have hrw : List.replicate k '\n' ++ a :: r = List.replicate (k + 1) '\n' ++ r := by
        subst ha
        rw [List.replicate_succ' k '\n']
        simp
      rw [squashNlAux_id (by rwa [hrw] at h), hrw]
    · rw [if_neg ha]
      rw [emitNl_eq_rep (fun h3 => h (triple_of_le h3 (a :: r)))]
      rw [squashNlAux_id (k := 0)
        (by simpa using noTripleNl_mono h ⟨List.replicate k '\n' ++ [a], [], by simp⟩)]
      simp

theorem pyStrip_within (l : Str) : pyStrip l <:+: l := by
  rw [pyStrip]
  exact List.IsInfix.trans ( List.IsPrefix.isInfix ( List.rdropWhile_prefix _ _))
    ( List.IsSuffix.isInfix ( List.dropWhile_suffix _))

theorem head_of_nonempty_pre {u v : List Char} (h : u <+: v) {c : Char}
    (hc : u.head? = some c) : v.head? = some c := by
  rcases h with ⟨t, rfl⟩
  rcases u with - | ⟨a, u'⟩
  · simp at hc
  · simpa using hc

theorem pyStrip_head_not_ws {l : Str} {c : Char} (h : (pyStrip l).head? = some c) :
    isPyWs c = false := by
  have h2 : (l.dropWhile isPyWs).head? = some c :=
    head_of_nonempty_pre ( List.rdropWhile_prefix _ _) h
  have hne : l.dropWhile isPyWs ≠ [] := by
    intro he
    rw [he] at h2
    simp at h2
  have h3 := List.head_dropWhile_not isPyWs l hne
  have h4 : (l.dropWhile isPyWs).head hne = c := by
    rw [List.head?_eq_head hne] at h2
    exact Option.some.inj h2
  rw [h4] at h3
  simpa using h3

theorem pyStrip_last_not_ws {l : Str} {c : Char} (h : (pyStrip l).getLast? = some c) :
    isPyWs c = false := by
  have hne : pyStrip l ≠ [] := by
    intro he
    rw [he] at h
    simp at h
  have h3 : ¬ isPyWs ((pyStrip l).getLast hne) = true :=
    List.rdropWhile_last_not isPyWs (l.dropWhile isPyWs) hne
  have h4 : (pyStrip l).getLast hne = c := by
    rw [List.getLast?_eq_getLast _ hne] at h
    exact Option.some.inj h
  rw [h4] at h3
  simpa using h3

theorem pyStrip_append_nl (l : Str) : pyStrip (pyStrip l ++ ['\n']) = pyStrip l := by
  rcases hps : pyStrip l with - | ⟨a, t⟩
  · decide
  · have hha : isPyWs a = false := pyStrip_head_not_ws (by rw [hps]; rfl)
    have hlast : List.rdropWhile isPyWs (a :: t) = a :: t := by
      rw [← hps, pyStrip, List.rdropWhile_idempotent]
    calc pyStrip (a :: t ++ ['\n'])
        = List.rdropWhile isPyWs ((a :: t ++ ['\n']).dropWhile isPyWs) := rfl
      _ = List.rdropWhile isPyWs ((a :: t) ++ ['\n']) := by
            rw [List.cons_append, List.dropWhile_cons_of_neg (by simp [hha])]
      _ = List.rdropWhile isPyWs (a :: t) := by
            rw [List.rdropWhile_concat_pos _ _ '\n' (by decide)]
      _ = a :: t := hlast

theorem mem_normCore {x : Str} {c : Char}
    (h : c ∈ squashNl (trimNl (squashSpaces (cr2nl x)))) :
    c = ' ' ∨ c = '\n' ∨ (c ∈ cr2nl x ∧ isHT c = false) := by
  rw [squashNl] at h
  rcases mem_squashNlAux h with h1 | h2
  · exact Or.inr (Or.inl h1)
  · rw [trimNl] at h2
    rcases mem_trimNlAux h2 with h1 | h1 | h3
    · exact Or.inl h1
    · exact Or.inr (Or.inl h1)
    · rw [squashSpaces] at h3
      rcases mem_squashSpacesAux h3 with h1 | h4
      · exact Or.inl h1
      · exact Or.inr (Or.inr h4)

theorem noDbl_normCore (x : Str) : noDblSp (squashNl (trimNl (squashSpaces (cr2nl x)))) := by
  rw [squashNl]
  refine noDbl_squashNlAux ?_
  rw [trimNl]
  refine noDbl_trimNlAux ?_
  rw [squashSpaces]
  simpa using noDbl_squashSpacesAux

theorem noSpNl_normCore (x : Str) :
    noPairSpNl (squashNl (trimNl (squashSpaces (cr2nl x)))) := by
  rw [squashNl]
  refine noSpNl_squashNlAux ?_
  simpa using noSpNl_trimNlAux

theorem noTriple_normCore (x : Str) :
    noTripleNl (squashNl (trimNl (squashSpaces (cr2nl x)))) := by
  rw [squashNl]
  exact noTriple_squashNlAux

theorem mem_normalize {x : Str} {c : Char} (h : c ∈ normalize x) :
    c = '\n' ∨ c ∈ squashNl (trimNl (squashSpaces (cr2nl x))) := by
  rw [normalize] at h
  rcases List.mem_append.1 h with h1 | h2
  · exact Or.inr ((pyStrip_within _).sublist.subset h1)
  · exact Or.inl (by simpa using h2)

theorem normalize_no_cr {x : Str} {c : Char} (h : c ∈ normalize x) : c ≠ '\r' := by
  rcases mem_normalize h with h1 | h2
  · simp [h1]
  · rcases mem_normCore h2 with h1 | h1 | ⟨h3, -⟩
    · simp [h1]
    · simp [h1]
    · exact not_cr_mem_cr2nl h3

theorem normalize_no_tab {x : Str} {c : Char} (h : c ∈ normalize x) : c ≠ '\t' := by
  rcases mem_normalize h with h1 | h2
  · simp [h1]
  · rcases mem_normCore h2 with h1 | h1 | ⟨-, h3⟩
    · simp [h1]
    · simp [h1]
    · intro hc
      rw [hc] at h3
      simp [isHT] at h3

theorem normalize_strip_eq (x : Str) :
    pyStrip (normalize x) = pyStrip (squashNl (trimNl (squashSpaces (cr2nl x)))) := by
  rw [normalize]
  exact pyStrip_append_nl _

theorem normalize_eq_strip_concat (x : Str) :
    normalize x = pyStrip (normalize x) ++ ['\n'] := by
  rw [normalize_strip_eq, normalize]

theorem normalize_last_pre_not_ws {x : Str} {c : Char}
    (h : (pyStrip (normalize x)).getLast? = some c) : isPyWs c = false :=
  pyStrip_last_not_ws h

theorem normalize_noDbl (x : Str) : noDblSp (normalize x) := by
  rw [normalize_eq_strip_concat x, noDblSp, List.chain'_append]
  refine ⟨chainOfInfix (noDbl_normCore x) ?_, List.chain'_singleton _, ?_⟩
  · rw [normalize_strip_eq]
    exact pyStrip_within _
  · intro y hy z hz
    rintro ⟨-, h2⟩
    simp only [List.head?_cons, Option.mem_def, Option.some.injEq] at hz
    rw [h2] at hz
    exact absurd hz.symm (by decide)

theorem normalize_noSpNl (x : Str) : noPairSpNl (normalize x) := by
  rw [normalize_eq_strip_concat x, noPairSpNl, List.chain'_append]
  refine ⟨chainOfInfix (noSpNl_normCore x) ?_, List.chain'_singleton _, ?_⟩
  · rw [normalize_strip_eq]
    exact pyStrip_within _
  · intro y hy z hz
    simp only [List.head?_cons, Option.mem_def, Option.some.injEq] at hz
    subst hz
    rintro (⟨h1, -⟩ | ⟨h1, -⟩)
    · have := normalize_last_pre_not_ws hy
      rw [h1] at this
      exact absurd this (by decide)
    · have := normalize_last_pre_not_ws hy
      rw [h1] at this
      exact absurd this (by decide)

theorem noTripleNl_concat_nl {t : Str} (ht : noTripleNl t)
    (hl : t.getLast? ≠ some '\n') : noTripleNl (t ++ ['\n']) := by
  rintro ⟨u, v, huv⟩
  rcases List.eq_nil_or_concat v with rfl | ⟨v', z, rfl⟩
  · have h2 : (u ++ ['\n', '\n']) ++ ['\n'] = t ++ ['\n'] := by
      rw [← huv]
      simp
    have h3 : u ++ ['\n', '\n'] = t := List.append_cancel_right h2
    apply hl
    rw [← h3]
    simp
  · have h2 : (u ++ ['\n', '\n', '\n'] ++ v') ++ [z] = t ++ ['\n'] := by
      rw [← huv]
      simp
    have h3 := List.append_inj' h2 rfl
    exact ht ⟨u, v', h3.1⟩

theorem normalize_noTriple (x : Str) : noTripleNl (normalize x) := by
  rw [normalize_eq_strip_concat x]
  refine noTripleNl_concat_nl ?_ ?_
  · rw [normalize_strip_eq]
    exact noTripleNl_mono (noTriple_normCore x) (pyStrip_within _)
  · intro hl
    exact absurd (normalize_last_pre_not_ws hl) (by decide)

theorem cr2nl_normalize (x : Str) : cr2nl (normalize x) = normalize x :=
  cr2nl_id (fun _ hc => normalize_no_cr hc)

theorem squashSpaces_normalize (x : Str) : squashSpaces (normalize x) = normalize x := by
  rw [squashSpaces]
  exact squashSpacesAux_id (fun hmem => normalize_no_tab hmem rfl) (normalize_noDbl x)
    (fun h => Bool.noConfusion h)

theorem trimNl_normalize (x : Str) : trimNl (normalize x) = normalize x := by
  rw [trimNl]
  have h := trimNlAux_id (l := normalize x) (p := false) (b := 0)
    (by simpa using normalize_noSpNl x) (fun h => Bool.noConfusion h)
  simpa using h

theorem squashNl_normalize (x : Str) : squashNl (normalize x) = normalize x := by
  rw [squashNl]
  have h := squashNlAux_id (l := normalize x) (k := 0)
    (by simpa using normalize_noTriple x)
  simpa using h

/-- C4: the text normalization function is idempotent — applying
`normalize` to its own output returns that output unchanged, for every
input string. -/
theorem normalize_idem (x : Str) : normalize (normalize x) = normalize x := by
  have h1 : normalize (normalize x)
      = pyStrip (squashNl (trimNl (squashSpaces (cr2nl (normalize x))))) ++ ['\n'] := rfl
  rw [h1, cr2nl_normalize x, squashSpaces_normalize x, trimNl_normalize x,
    squashNl_normalize x]
  exact (normalize_eq_strip_concat x).symm

theorem normalize_shape (x : Str) :
    noTripleNl (normalize x) ∧ endsOneNl (normalize x) = true ∧
      (normalize x = ['\n'] ∨ noLeadingWs (normalize x) = true) := by
  refine ⟨normalize_noTriple x, ?_, ?_⟩
  · rw [endsOneNl, normalize_eq_strip_concat x]
    simp only [Bool.and_eq_true, decide_eq_true_eq]
    constructor
    · simp
    · rw [List.dropLast_concat]
      intro hl
      exact absurd (normalize_last_pre_not_ws hl) (by decide)
  · rcases hps : pyStrip (normalize x) with - | ⟨a, t⟩
    · left
      rw [normalize_eq_strip_concat x, hps]
      rfl
    · right
      rw [noLeadingWs, normalize_eq_strip_concat x, hps]
      have := pyStrip_head_not_ws (l := normalize x) (by rw [hps]; rfl)
      simp [this]

/-- C5 (amended): for every document, the transduced text has no run of
three or more newlines and ends with exactly one trailing newline; it
has no leading whitespace except when the extracted text is entirely
whitespace, in which case the output is exactly one newline. -/
theorem html_to_text_shape (doc : Node) :
    noTripleNl (html_to_text doc) ∧ endsOneNl (html_to_text doc) = true ∧
      (html_to_text doc = ['\n'] ∨ noLeadingWs (html_to_text doc) = true) :=
  normalize_shape (List.flatten (walk (pick_main_content (decompose doc))))

/-- C5 counterexample: a whitespace-only document transduces to the
single newline string, whose first character is whitespace — the claim
that the output never has leading whitespace fails on it. -/
theorem html_to_text_leading_ws_cex :
    html_to_text c5Doc = ['\n'] ∧ noLeadingWs (html_to_text c5Doc) = false ∧
      isPyWs '\n' = true := by decide

theorem rows_foldl_eq (trs : List Node) (acc : List Str) :
    trs.foldl (fun rows tr => if rowCells tr = [] then rows
      else rows ++ [List.intercalate ((" | ").toList) (rowCells tr)]) acc
    = acc ++ trs.filterMap (fun tr => if rowCells tr = [] then none
        else some (List.intercalate ((" | ").toList) (rowCells tr))) := by
  induction trs generalizing acc with
  | nil => simp
  | cons tr trs ih =>
    simp only [List.foldl_cons, List.filterMap_cons]
    by_cases hc : rowCells tr = []
    · rw [if_pos hc, if_pos hc, ih]
    · rw [if_neg hc, if_neg hc, ih]
      simp

/-- C7 (amended): table transduction emits one " | "-joined line per
row that has at least one header/data cell (a cell-less row contributes
no line), in row order; on the spec's example table this gives the line
"A | B" followed by "1 | 2", and the walk wraps the table text in blank
lines. -/
theorem table_to_text_spec :
    (∀ t : Node, table_to_text t = List.intercalate ['\n'] (tableRowLines t)) ∧
    table_to_text exTable = ("A | B\n1 | 2").toList ∧
    walk exTable = [("\n\nA | B\n1 | 2\n\n").toList] := by
  refine ⟨fun t => ?_, by decide, by decide⟩
  show List.intercalate ['\n']
      ((findAllN (fun n => isNamed n (("tr").toList)) t).foldl
        (fun rows tr => if rowCells tr = [] then rows
          else rows ++ [List.intercalate ((" | ").toList) (rowCells tr)]) []) = _
  rw [rows_foldl_eq, tableRowLines]
  simp

/-- C7 counterexample: a table whose first row has no `th`/`td` cell
yields one output line for its two rows — not one line per row as the
claim states. -/
theorem table_to_text_rowless_cex :
    table_to_text c7Rowless = ("x").toList ∧
    (findAllN (fun n => isNamed n (("tr").toList)) c7Rowless).length = 2 ∧
    (splitOnChar '\n' (table_to_text c7Rowless)).length = 1 := by decide

/-- C2 (amended): `fetch` fails on a network error, on a timeout, and
on any HTTP status in [400, 600); a response with any other status —
including non-2xx informational and redirect statuses that reach the
caller — returns the body. -/
theorem fetch_spec :
    fetch .netError = .fetchError ∧ fetch .timeout = .fetchError ∧
    (∀ st b, 400 ≤ st → st < 600 → fetch (.response st b) = .fetchError) ∧
    (∀ st b, st < 400 ∨ 600 ≤ st → fetch (.response st b) = .ok b) := by
  refine ⟨rfl, rfl, fun st b h1 h2 => ?_, fun st b h => ?_⟩
  · rw [fetch, if_pos (by simp [raiseForStatus]; omega)]
  · rw [fetch, if_neg]
    simp only [raiseForStatus, Bool.and_eq_true, decide_eq_true_eq, not_and]
    omega

theorem fetch_spec_witness :
    fetch (.response 404 []) = .fetchError ∧ fetch (.response 304 []) = .ok [] :=
  ⟨fetch_spec.2.2.1 404 [] (by decide) (by decide),
   fetch_spec.2.2.2 304 [] (Or.inl (by decide))⟩

/-- C2 counterexample: status 304 is not a 2xx status, yet `fetch`
returns the body instead of failing — `raise_for_status` only raises
for 4xx/5xx. -/
theorem fetch_non2xx_cex :
    fetch (.response 304 (("body").toList)) = .ok (("body").toList) ∧
      ¬(200 ≤ 304 ∧ 304 < 300) := by decide

theorem mem_setAddAll :
    ∀ {ts acc : List Str} {u : Str}, u ∈ setAddAll acc ts ↔ u ∈ acc ∨ u ∈ ts
  | [], acc, u => by simp [setAddAll]
  | t :: ts, acc, u => by
    rw [setAddAll, List.foldl_cons]
    by_cases h : t ∈ acc
    · rw [if_pos h]
      have h2 : u ∈ setAddAll acc ts ↔ u ∈ acc ∨ u ∈ ts := mem_setAddAll
      rw [setAddAll] at h2
      rw [h2]
      simp only [List.mem_cons]
      constructor
      · tauto
      · rintro (h1 | h1 | h1)
        · exact Or.inl h1
        · exact Or.inl (h1 ▸ h)
        · exact Or.inr h1
    · rw [if_neg h]
      have h2 : u ∈ setAddAll (acc ++ [t]) ts ↔ u ∈ acc ++ [t] ∨ u ∈ ts := mem_setAddAll
      rw [setAddAll] at h2
      rw [h2]
      simp only [List.mem_append, List.mem_singleton, List.mem_cons]
      tauto

theorem setAddAll_nodup :
    ∀ {ts acc : List Str}, acc.Nodup → (setAddAll acc ts).Nodup
  | [], acc, h => by simpa [setAddAll] using h
  | t :: ts, acc, h => by
    rw [setAddAll, List.foldl_cons]
    by_cases hm : t ∈ acc
    · rw [if_pos hm]
      have h2 : (setAddAll acc ts).Nodup := setAddAll_nodup h
      rwa [setAddAll] at h2
    · rw [if_neg hm]
      have hnd : (acc ++ [t]).Nodup := by
        simp [List.nodup_append, h, hm]
      have h2 : (setAddAll (acc ++ [t]) ts).Nodup := setAddAll_nodup hnd
      rwa [setAddAll] at h2

theorem links_foldl_eq (base : Str) :
    ∀ (l : List Node) (acc : List Str),
      l.foldl (fun links a =>
        let href := pyStrip ((getAttrN a (("href").toList)).getD [])
        if href = [] ∨ (("mailto:").toList).isPrefixOf href ∨ (("javascript:").toList).isPrefixOf href
        then links
        else
          let absU := urldefrag (urljoin base href)
          if absU ∈ links then links else links ++ [absU]) acc
      = setAddAll acc ((l.filterMap keptHref).map (fun h => urldefrag (urljoin base h)))
  | [], acc => by simp [setAddAll]
  | a :: l, acc => by
    simp only [List.foldl_cons, List.filterMap_cons]
    by_cases hk : pyStrip ((getAttrN a (("href").toList)).getD []) = [] ∨
        (("mailto:").toList).isPrefixOf (pyStrip ((getAttrN a (("href").toList)).getD [])) ∨
        (("javascript:").toList).isPrefixOf (pyStrip ((getAttrN a (("href").toList)).getD []))
    · have hkh : keptHref a = none := by
        show (if (pyStrip ((getAttrN a (("href").toList)).getD []) = [] ∨
            (("mailto:").toList).isPrefixOf (pyStrip ((getAttrN a (("href").toList)).getD [])) ∨
            (("javascript:").toList).isPrefixOf (pyStrip ((getAttrN a (("href").toList)).getD [])))
          then none else some (pyStrip ((getAttrN a (("href").toList)).getD []))) = none
        rw [if_pos hk]
      rw [hkh]
      simp only [if_pos hk]
      exact links_foldl_eq base l acc
    · have hkh : keptHref a = some (pyStrip ((getAttrN a (("href").toList)).getD [])) := by
        show (if (pyStrip ((getAttrN a (("href").toList)).getD []) = [] ∨
            (("mailto:").toList).isPrefixOf (pyStrip ((getAttrN a (("href").toList)).getD [])) ∨
            (("javascript:").toList).isPrefixOf (pyStrip ((getAttrN a (("href").toList)).getD [])))
          then none else some (pyStrip ((getAttrN a (("href").toList)).getD [])))
          = some (pyStrip ((getAttrN a (("href").toList)).getD []))
        rw [if_neg hk]
      rw [hkh]
      simp only [if_neg hk, List.map_cons]
      rw [links_foldl_eq base l]
      rw [setAddAll, setAddAll, List.foldl_cons]

theorem extract_links_eq (soup : Node) (base : Str) :
    extract_links soup base = setAddAll [] (linkTargets soup base) :=
  links_foldl_eq base _ []

/-- C8: link extraction returns, for each anchor whose trimmed `href`
is non-empty and not a `mailto:`/`javascript:` target, the target
resolved against the page URL with the fragment stripped, collected as
a duplicate-free set; the spec's parent-relative example resolves as
stated, and two anchors differing only in fragment collapse to one
entry. -/
theorem extract_links_spec :
    (∀ soup base, (extract_links soup base).Nodup) ∧
    (∀ soup base u, u ∈ extract_links soup base ↔ u ∈ linkTargets soup base) ∧
    extract_links c8Doc (("https://site/root/sub/page.html").toList)
      = [("https://site/root/x/y.html").toList] ∧
    extract_links c8FragDoc (("https://site/root/q.html").toList)
      = [("https://site/root/p.html").toList] := by
  refine ⟨fun soup base => ?_, fun soup base u => ?_, by decide, by decide⟩
  · rw [extract_links_eq]
    exact setAddAll_nodup List.nodup_nil
  · rw [extract_links_eq]
    rw [mem_setAddAll]
    simp [linkTargets]

/-- C9: `url_to_outpath` is partial — when the root-relative remainder
is a bare query string (here `?x=1`), the query-stripping step leaves
an empty filename and `with_suffix` raises `ValueError` instead of
returning a path, for every root and output directory. -/
theorem url_to_outpath_query_only_err (root : Str) (outdir : PPath) :
    url_to_outpath (root ++ ("?x=1").toList) root outdir = none := by
  simp only [url_to_outpath, List.drop_left]
  rfl

/-- C10: a URL that passes the `startswith(root)` check but whose
remainder begins with `..` maps to a path that is joined under the
output directory without normalization and resolves outside it. -/
theorem url_to_outpath_escape :
    is_within_root (("https://site/root/../escape.html").toList)
        (("https://site/root/").toList) = true ∧
    url_to_outpath (("https://site/root/../escape.html").toList)
        (("https://site/root/").toList) ⟨true, [("home").toList, ("out").toList]⟩
      = some ⟨true, [("home").toList, ("out").toList, ("..").toList, ("escape.txt").toList]⟩ ∧
    resolveDots [("home").toList, ("out").toList, ("..").toList, ("escape.txt").toList]
      = [("home").toList, ("escape.txt").toList] ∧
    ¬ ([("home").toList, ("out").toList] <+: [("home").toList, ("escape.txt").toList]) := by
  decide

theorem crawlLoop_inv (world : Str → Option Node) (root : Str) (maxPages : Nat)
    (outdir : PPath) :
    ∀ s : CrawlState,
      s.saved ≤ maxPages →
      s.fetched.all (fun e => decide (e.2 < maxPages) &&
        (is_within_root e.1 root && !should_skip_url e.1)) = true →
      s.written.all (fun e => is_within_root e.1 root && !should_skip_url e.1) = true →
      (crawlLoop world root maxPages outdir s).saved ≤ maxPages ∧
      ((crawlLoop world root maxPages outdir s).crashed = true ∨
        (crawlLoop world root maxPages outdir s).q = [] ∨
        (crawlLoop world root maxPages outdir s).saved = maxPages) ∧
      (crawlLoop world root maxPages outdir s).fetched.all (fun e => decide (e.2 < maxPages) &&
        (is_within_root e.1 root && !should_skip_url e.1)) = true ∧
      (crawlLoop world root maxPages outdir s).written.all
        (fun e => is_within_root e.1 root && !should_skip_url e.1) = true := by
  intro s
  induction s using crawlLoop.induct world root maxPages outdir with
  | case1 x hq =>
    intro hsv hf hw
    rw [crawlLoop.eq_def, hq]
    exact ⟨hsv, Or.inr (Or.inl hq), hf, hw⟩
  | case2 x url rest hq hs hmem ih =>
    intro hsv hf hw
    have hstep : crawlLoop world root maxPages outdir x
        = crawlLoop world root maxPages outdir
          { q := rest, seen := x.seen, saved := x.saved, fetched := x.fetched,
            written := x.written, crashed := x.crashed } := by
      rw [crawlLoop.eq_def, hq]
      simp only [dif_pos hs, if_pos hmem]
    rw [hstep]
    exact ih hsv hf hw
  | case3 x url rest hq hs hmem s1 hroot ih =>
    intro hsv hf hw
    have hstep : crawlLoop world root maxPages outdir x
        = crawlLoop world root maxPages outdir
          { q := rest, seen := url :: x.seen, saved := x.saved, fetched := x.fetched,
            written := x.written, crashed := x.crashed } := by
      rw [crawlLoop.eq_def, hq]
      simp only [dif_pos hs, if_neg hmem, if_pos hroot]
    rw [hstep]
    exact ih hsv hf hw
  | case4 x url rest hq hs hmem s1 hroot hskip ih =>
    intro hsv hf hw
    have hstep : crawlLoop world root maxPages outdir x
        = crawlLoop world root maxPages outdir
          { q := rest, seen := url :: x.seen, saved := x.saved, fetched := x.fetched,
            written := x.written, crashed := x.crashed } := by
      rw [crawlLoop.eq_def, hq]
      simp only [dif_pos hs, if_neg hmem, if_neg hroot, if_pos hskip]
    rw [hstep]
    exact ih hsv hf hw
  | case5 x url rest hq hs hmem s1 hroot hskip hworld ih =>
    intro hsv hf hw
    have hroot' : is_within_root url root = true := by
      by_contra hc
      exact hroot hc
    have hskip' : should_skip_url url = false := by
      rcases Bool.eq_false_or_eq_true (should_skip_url url) with h | h
      · exact absurd h hskip
      · exact h
    have hstep : crawlLoop world root maxPages outdir x
        = crawlLoop world root maxPages outdir
          { q := rest, seen := url :: x.seen, saved := x.saved,
            fetched := x.fetched ++ [(url, x.saved)],
            written := x.written, crashed := x.crashed } := by
      rw [crawlLoop.eq_def, hq]
      simp only [dif_pos hs, if_neg hmem, if_neg hroot, if_neg hskip, hworld]
    rw [hstep]
    refine ih hsv ?_ hw
    rw [List.all_append, hf]
    simp [hroot', hskip', Nat.lt_of_lt_of_le hs (le_refl maxPages), hs]
  | case6 x url rest hq hs hmem hroot hskip doc hworld houtp =>
    intro hsv hf hw
    have hroot' : is_within_root url root = true := by
      by_contra hc
      exact hroot hc
    have hskip' : should_skip_url url = false := by
      rcases Bool.eq_false_or_eq_true (should_skip_url url) with h | h
      · exact absurd h hskip
      · exact h
    have hstep : crawlLoop world root maxPages outdir x
        = { q := rest, seen := url :: x.seen, saved := x.saved,
            fetched := x.fetched ++ [(url, x.saved)],
            written := x.written, crashed := true } := by
      rw [crawlLoop.eq_def, hq]
      simp only [dif_pos hs, if_neg hmem, if_neg hroot, if_neg hskip, hworld, houtp]
    rw [hstep]
    refine ⟨hsv, Or.inl rfl, ?_, hw⟩
    rw [List.all_append, hf]
    simp [hroot', hskip', hs]
  | case7 x url rest hq hs hmem s1 hroot hskip doc hworld outpath houtp s2 links ih =>
    intro hsv hf hw
    have hroot' : is_within_root url root = true := by
      by_contra hc
      exact hroot hc
    have hskip' : should_skip_url url = false := by
      rcases Bool.eq_false_or_eq_true (should_skip_url url) with h | h
      · exact absurd h hskip
      · exact h
    have hstep : crawlLoop world root maxPages outdir x
        = crawlLoop world root maxPages outdir
          { q := rest ++ List.filter
              (fun link => decide (link ∉ url :: x.seen) && is_within_root link root &&
                !should_skip_url link) (extract_links doc url),
            seen := url :: x.seen, saved := x.saved + 1,
            fetched := x.fetched ++ [(url, x.saved)],
            written := x.written ++ [(url, outpath)], crashed := x.crashed } := by
      rw [crawlLoop.eq_def, hq]
      simp only [dif_pos hs, if_neg hmem, if_neg hroot, if_neg hskip, hworld, houtp]
    rw [hstep]
    refine ih hs ?_ ?_
    · rw [List.all_append, hf]
      simp [hroot', hskip', hs]
    · rw [List.all_append, hw]
      simp [hroot', hskip']
  | case8 x url rest hq hs =>
    intro hsv hf hw
    rw [crawlLoop.eq_def, hq]
    simp only [dif_neg hs]
    exact ⟨hsv, Or.inr (Or.inr (by omega)), hf, hw⟩

/-- C1: every URL the crawl loop fetches, and every URL it writes
output for — the start URL included — satisfies `url.startswith(root)`
and does not match the skip-extension predicate: both checks run after
dequeue and before fetch, and link enqueueing re-checks them. -/
theorem crawl_fetch_write_in_scope (world : Str → Option Node) (root start : Str)
    (maxPages : Nat) (outdir : PPath) :
    (crawlLoop world root maxPages outdir (initState start)).fetched.all
      (fun e => is_within_root e.1 root && !should_skip_url e.1) = true ∧
    (crawlLoop world root maxPages outdir (initState start)).written.all
      (fun e => is_within_root e.1 root && !should_skip_url e.1) = true := by
  have h := crawlLoop_inv world root maxPages outdir (initState start)
    (by simp [initState]) (by simp [initState]) (by simp [initState])
  refine ⟨?_, h.2.2.2⟩
  have h2 := h.2.2.1
  rw [List.all_eq_true] at h2 ⊢
  intro e he
  have h3 := h2 e he
  simp only [Bool.and_eq_true] at h3 ⊢
  exact h3.2

/-- C6 (amended): the saved count never exceeds `maxPages`; every fetch
happens while the saved count is still below `maxPages`; and the loop
ends with the queue empty or the budget reached, unless the run aborts
through the unhandled `ValueError` that `url_to_outpath` raises on a
query-only remainder (the `crashed` flag). -/
theorem crawl_guard (world : Str → Option Node) (root start : Str)
    (maxPages : Nat) (outdir : PPath) :
    (crawlLoop world root maxPages outdir (initState start)).saved ≤ maxPages ∧
    (crawlLoop world root maxPages outdir (initState start)).fetched.all
      (fun e => decide (e.2 < maxPages)) = true ∧
    ((crawlLoop world root maxPages outdir (initState start)).crashed = true ∨
     (crawlLoop world root maxPages outdir (initState start)).q = [] ∨
     (crawlLoop world root maxPages outdir (initState start)).saved = maxPages) := by
  have h := crawlLoop_inv world root maxPages outdir (initState start)
    (by simp [initState]) (by simp [initState]) (by simp [initState])
  refine ⟨h.1, ?_, h.2.1⟩
  have h2 := h.2.2.1
  rw [List.all_eq_true] at h2 ⊢
  intro e he
  have h3 := h2 e he
  simp only [Bool.and_eq_true] at h3 ⊢
  exact h3.1

/-- C6 counterexample: in a world whose start page links to a URL whose
root-relative remainder is a bare query string, the run aborts with the
`ValueError` while the queue is still non-empty and the saved count is
below the budget — so "the loop ends exactly when the queue is empty or
savedCount has reached maxPages" fails. -/
theorem crawl_crash_cex :
    cexFinal.crashed = true ∧ cexFinal.q ≠ [] ∧ cexFinal.saved < 10 := by
  have he : cexFinal = ⟨[cexUrlOk], [cexUrlBad, cexStart], 1,
      [(cexStart, 0), (cexUrlBad, 1)],
      [(cexStart, ⟨true, [("out").toList, ("p.txt").toList]⟩)], true⟩ := by
    rw [cexFinal, crawlLoop.eq_def]
    show crawlLoop cexWorld cexRoot 10 cexOutdir
      ⟨[cexUrlBad, cexUrlOk], [cexStart], 1, [(cexStart, 0)],
       [(cexStart, ⟨true, [("out").toList, ("p.txt").toList]⟩)], false⟩ = _
    rw [crawlLoop.eq_def]
    rfl
  rw [he]
  exact ⟨rfl, by simp, by decide⟩

theorem takeUntilChar_of_not_mem {c : Char} {l : Str} (h : c ∉ l) :
    takeUntilChar c l = l := by
  rw [takeUntilChar, List.takeWhile_eq_self_iff]
  intro x hx
  simp only [decide_eq_true_eq]
  intro hxc
  exact h (hxc ▸ hx)

theorem splitOnChar_ne_nil (c : Char) : ∀ (l : Str), splitOnChar c l ≠ []
  | [] => by simp [splitOnChar]
  | a :: r => by
    rw [splitOnChar]
    rcases hsp : splitOnChar c r with - | ⟨s0, ss⟩
    · exact absurd hsp (splitOnChar_ne_nil c r)
    · by_cases hac : a = c <;> simp [hac]

theorem splitOnChar_no_sep {c : Char} : ∀ {l t : Str}, t ∈ splitOnChar c l → c ∉ t
  | [], t, h => by
    simp only [splitOnChar, List.mem_singleton] at h
    simp [h]
  | a :: r, t, h => by
    rcases hsp : splitOnChar c r with - | ⟨s0, ss⟩
    · exact absurd hsp (splitOnChar_ne_nil c r)
    · have hred : splitOnChar c (a :: r)
          = if a = c then [] :: s0 :: ss else (a :: s0) :: ss := by
        rw [splitOnChar, hsp]
      rw [hred] at h
      by_cases hac : a = c
      · rw [if_pos hac] at h
        rcases List.mem_cons.1 h with h1 | h2
        · subst h1
          simp
        · exact splitOnChar_no_sep (l := r) (by rw [hsp]; exact h2)
      · rw [if_neg hac] at h
        rcases List.mem_cons.1 h with h1 | h2
        · subst h1
          intro hmem
          rcases List.mem_cons.1 hmem with h3 | h4
          · exact hac h3.symm
          · exact splitOnChar_no_sep (l := r) (by rw [hsp]; exact List.mem_cons_self s0 ss) h4
        · exact splitOnChar_no_sep (l := r)
            (by rw [hsp]; exact List.mem_cons_of_mem s0 h2)

theorem splitOnChar_sep_append (c : Char) : ∀ (u v : Str),
    splitOnChar c (u ++ c :: v) = splitOnChar c u ++ splitOnChar c v
  | [], v => by
    rw [List.nil_append]
    rcases hsp : splitOnChar c v with - | ⟨s0, ss⟩
    · exact absurd hsp (splitOnChar_ne_nil c v)
    · have hred : splitOnChar c (c :: v) = [] :: s0 :: ss := by
        rw [splitOnChar, hsp]
        simp
      rw [hred]
      simp [splitOnChar, hsp]
  | a :: u, v => by
    rcases hspu : splitOnChar c u with - | ⟨s0, ss⟩
    · exact absurd hspu (splitOnChar_ne_nil c u)
    · rcases hspa : splitOnChar c (u ++ c :: v) with - | ⟨w0, ws⟩
      · exact absurd hspa (splitOnChar_ne_nil c (u ++ c :: v))
      · have hprev : splitOnChar c (u ++ c :: v) = splitOnChar c u ++ splitOnChar c v :=
          splitOnChar_sep_append c u v
        have hred1 : splitOnChar c (a :: (u ++ c :: v))
            = if a = c then [] :: w0 :: ws else (a :: w0) :: ws := by
          rw [splitOnChar, hspa]
        have hred2 : splitOnChar c (a :: u)
            = if a = c then [] :: s0 :: ss else (a :: s0) :: ss := by
          rw [splitOnChar, hspu]
        rw [List.cons_append, hred1, hred2]
        rw [hspa, hspu] at hprev
        have hw0 : w0 = s0 ∧ ws = ss ++ splitOnChar c v := by
          simp only [List.cons_append] at hprev
          exact ⟨(List.cons.inj hprev).1, (List.cons.inj hprev).2⟩
        by_cases hac : a = c
        · rw [if_pos hac, if_pos hac]
          simp [hw0.1, hw0.2]
        · rw [if_neg hac, if_neg hac]
          simp [hw0.1, hw0.2]

theorem pySuffix_split (name : Str) :
    name.take (name.length - (pySuffix name).length) ++ pySuffix name = name ∧
    (pySuffix name = [] ∨ (pySuffix name).head? = some '.') := by
  rw [pySuffix]
  by_cases hdot : '.' ∈ name
  · rw [if_pos hdot]
    by_cases hk : 1 ≤ (name.reverse.takeWhile (fun c => c ≠ '.')).length ∧
        (name.reverse.takeWhile (fun c => c ≠ '.')).length + 2 ≤ name.length
    · rw [if_pos hk]
      have hdotrev : '.' ∈ name.reverse := by simpa using hdot
      have hdw : name.reverse.dropWhile (fun c => c ≠ '.') ≠ [] := by
        intro hnil
        have := List.dropWhile_eq_nil_iff.1 hnil '.' hdotrev
        simp at this
      rcases hdwe : name.reverse.dropWhile (fun c => c ≠ '.') with - | ⟨d, dw⟩
      · exact absurd hdwe hdw
      have hdc : d = '.' := by
        have h1 := List.head?_dropWhile_not (fun c => decide (c ≠ '.')) name.reverse
        rw [hdwe] at h1
        simpa using h1
      subst hdc
      obtain ⟨tw, htw⟩ : ∃ tw, name.reverse.takeWhile (fun c => c ≠ '.') = tw := ⟨_, rfl⟩
      rw [htw] at hk ⊢
      have hsplit2 : name.reverse = (tw ++ ['.']) ++ dw := by
        conv_lhs => rw [← List.takeWhile_append_dropWhile
          (fun c => decide (c ≠ '.')) name.reverse]
        rw [hdwe, htw]
        simp
      have htake : name.reverse.take (tw.length + 1) = tw ++ ['.'] := by
        conv_lhs => rw [hsplit2]
        exact List.take_left' (by simp)
      rw [htake]
      have hlen : name.length = tw.length + 1 + dw.length := by
        have h2 := congrArg List.length hsplit2
        simp at h2
        omega
      constructor
      · obtain ⟨A, hA⟩ : ∃ A, name.length - ((tw ++ ['.']).reverse).length = A := ⟨_, rfl⟩
        rw [hA]
        have hdecomp : name = dw.reverse ++ (tw ++ ['.']).reverse := by
          conv_lhs => rw [← List.reverse_reverse name]
          conv_lhs => rw [hsplit2]
          rw [List.reverse_append]
        rw [hdecomp, List.take_left' ?_]
        have hrl : ((tw ++ ['.']).reverse).length = tw.length + 1 := by simp
        rw [hrl] at hA
        simp only [List.length_reverse]
        omega
      · right
        rw [List.reverse_append]
        simp
    · rw [if_neg hk]
      simp
  · rw [if_neg hdot]
    simp

theorem pySuffix_mem {name : Str} {x : Char} (h : x ∈ pySuffix name) : x ∈ name := by
  have hsp := (pySuffix_split name).1
  rw [← hsp]
  exact List.mem_append.2 (Or.inr h)

theorem relName_no_slash (rel : Str) : '/' ∉ relName rel := by
  rw [relName, pName]
  rcases hgl : (parsePPath (relBase rel)).parts.getLast? with - | nm
  · simp
  · simp only [Option.getD_some]
    have hmem : nm ∈ (parsePPath (relBase rel)).parts := List.mem_of_getLast?_eq_some hgl
    rw [parsePPath] at hmem
    have hmem2 := List.mem_of_mem_filter hmem
    exact splitOnChar_no_sep hmem2

theorem url_to_outpath_eq (root : Str) (outdir : PPath) (rel : Str) :
    url_to_outpath (root ++ rel) root outdir =
      (if lowerStr (pySuffix (relName rel)) = ((".html").toList) ∨
          lowerStr (pySuffix (relName rel)) = ((".htm").toList)
       then withSuffix (parsePPath (relBase rel)) ((".txt").toList)
       else withSuffix (parsePPath (relBase rel))
         (pySuffix (relName rel) ++ (".txt").toList)).map (fun rp => pJoin outdir rp) := by
  simp only [url_to_outpath, List.drop_left]
  rfl

theorem url_to_outpath_of_name_nil (root : Str) (outdir : PPath) (rel : Str)
    (h : relName rel = []) : url_to_outpath (root ++ rel) root outdir = none := by
  rw [url_to_outpath_eq, h]
  have hc : ¬ (lowerStr (pySuffix ([] : Str)) = ((".html").toList) ∨
      lowerStr (pySuffix ([] : Str)) = ((".htm").toList)) := by decide
  rw [if_neg hc]
  have hsfx : pySuffix ([] : Str) ++ (".txt").toList = (".txt").toList := by decide
  rw [hsfx]
  simp only [withSuffix]
  have hs1 : ¬ ('/' ∈ (".txt").toList) := by decide
  have hs2 : ¬ (((".txt").toList ≠ ([] : Str)) ∧
      ((".txt").toList.take 1 ≠ (['.'] : Str) ∨ (".txt").toList = (['.'] : Str))) := by decide
  rw [if_neg hs1, if_neg hs2]
  rw [relName] at h
  rw [if_pos h]
  rfl

theorem pJoin_parts_last (outdir : PPath) (abs : Bool) (fu : List Str) (nm : Str) :
    (pJoin outdir ⟨abs, fu ++ [nm]⟩).parts.getLast? = some nm := by
  cases abs with
  | true =>
    have h1 : pJoin outdir ⟨true, fu ++ [nm]⟩ = ⟨true, fu ++ [nm]⟩ := rfl
    rw [h1]
    exact List.getLast?_concat _
  | false =>
    have h1 : pJoin outdir ⟨false, fu ++ [nm]⟩
        = ⟨outdir.absolute, outdir.parts ++ (fu ++ [nm])⟩ := rfl
    rw [h1, ← List.append_assoc]
    exact List.getLast?_concat _

theorem url_to_outpath_of_name_ne (root : Str) (outdir : PPath) (rel : Str)
    (h : relName rel ≠ []) :
    url_to_outpath (root ++ rel) root outdir
      = some (pJoin outdir ⟨(parsePPath (relBase rel)).absolute,
          (parsePPath (relBase rel)).parts.dropLast ++ [mappedName rel]⟩) := by
  have hnm : pName (parsePPath (relBase rel)) = relName rel := rfl
  rw [url_to_outpath_eq]
  by_cases hcond : lowerStr (pySuffix (relName rel)) = ((".html").toList) ∨
      lowerStr (pySuffix (relName rel)) = ((".htm").toList)
  · rw [if_pos hcond]
    have hold : pySuffix (relName rel) ≠ [] := by
      intro he
      rw [he] at hcond
      rcases hcond with h1 | h1 <;> exact absurd h1 (by decide)
    simp only [withSuffix]
    rw [hnm]
    have hs1 : ¬ ('/' ∈ (".txt").toList) := by decide
    have hs2 : ¬ (((".txt").toList ≠ ([] : Str)) ∧
        ((".txt").toList.take 1 ≠ (['.'] : Str) ∨ (".txt").toList = (['.'] : Str))) := by decide
    rw [if_neg hs1, if_neg hs2, if_neg h, if_neg hold]
    simp only [mappedName]
    rw [if_pos hcond]
    rfl
  · rw [if_neg hcond]
    simp only [withSuffix]
    rw [hnm]
    have hs1 : ¬ ('/' ∈ pySuffix (relName rel) ++ (".txt").toList) := by
      intro hmem
      rcases List.mem_append.1 hmem with hm | hm
      · exact relName_no_slash rel (pySuffix_mem hm)
      · exact absurd hm (by decide)
    rw [if_neg hs1]
    rcases (pySuffix_split (relName rel)).2 with hold0 | hhead
    · rw [hold0]
      simp only [List.nil_append]
      have hs2 : ¬ (((".txt").toList ≠ ([] : Str)) ∧
          ((".txt").toList.take 1 ≠ (['.'] : Str) ∨ (".txt").toList = (['.'] : Str))) := by
        decide
      rw [if_neg hs2, if_neg h]
      rw [if_pos trivial]
      simp only [mappedName]
      rw [if_neg hcond]
      rfl
    · obtain ⟨tl, htl⟩ : ∃ tl, pySuffix (relName rel) = '.' :: tl := by
        rcases hpe : pySuffix (relName rel) with - | ⟨c, tl⟩
        · rw [hpe] at hhead
          exact absurd hhead (by simp)
        · rw [hpe] at hhead
          simp only [List.head?_cons, Option.some.injEq] at hhead
          exact ⟨tl, by rw [hhead]⟩
      have hs2 : ¬ ((pySuffix (relName rel) ++ (".txt").toList ≠ ([] : Str)) ∧
          ((pySuffix (relName rel) ++ (".txt").toList).take 1 ≠ (['.'] : Str) ∨
            pySuffix (relName rel) ++ (".txt").toList = (['.'] : Str))) := by
        rw [htl]
        rintro ⟨h1, h2 | h2⟩
        · exact h2 (by simp)
        · have hlen := congrArg List.length h2
          simp at hlen
      rw [if_neg hs2, if_neg h]
      have holdne : pySuffix (relName rel) ≠ [] := by
        rw [htl]
        exact List.cons_ne_nil _ _
      rw [if_neg holdne]
      have hsp1 := (pySuffix_split (relName rel)).1
      have hname2 : (relName rel).take ((relName rel).length - (pySuffix (relName rel)).length)
          ++ (pySuffix (relName rel) ++ (".txt").toList)
            = relName rel ++ (".txt").toList := by
        rw [← List.append_assoc, hsp1]
      rw [hname2]
      simp only [mappedName]
      rw [if_neg hcond]
      rfl

/-- C3 (counterexample): the remainder `x?y/` ends in `/`, yet the
mapped output path ends in `x.txt`, not in the default document name
`index.txt` — the default name is appended before the query is
stripped, so the spec's rule 2 misfires on `/`-ending remainders whose
slash sits inside the query string. -/
theorem url_to_outpath_trailing_slash_query_cex :
    url_to_outpath (("https://s/r/x?y/").toList) (("https://s/r/").toList)
        ⟨true, [("out").toList]⟩
      = some ⟨true, [("out").toList, ("x.txt").toList]⟩ ∧
    (⟨true, [("out").toList, ("x.txt").toList]⟩ : PPath).parts.getLast?
      ≠ some (("index.txt").toList) := by decide

/-- C3 (amended): with `rel` the remainder of the URL after the root
prefix, `url_to_outpath` behaves as follows.  (a) If `rel` carries no
query string and is empty or ends in `/`, the mapped path ends in
`index.txt`.  (b) If the remainder reduces to an empty filename (e.g. a
pure query string), the function raises `ValueError` (modelled as
`none`) rather than producing a path.  (c) Otherwise the final
component is the remainder's filename with an `.html`/`.htm` extension
(case-insensitive) replaced by `.txt` and any other (or absent)
extension kept with `.txt` appended, joined under the output
directory. -/
theorem url_to_outpath_spec (root : Str) (outdir : PPath) (rel : Str) :
    (('?' ∉ rel) → (rel = [] ∨ rel.getLast? = some '/') →
      ∃ p, url_to_outpath (root ++ rel) root outdir = some p ∧
        p.parts.getLast? = some (("index.txt").toList)) ∧
    (relName rel = [] → url_to_outpath (root ++ rel) root outdir = none) ∧
    (relName rel ≠ [] → url_to_outpath (root ++ rel) root outdir
      = some (pJoin outdir ⟨(parsePPath (relBase rel)).absolute,
          (parsePPath (relBase rel)).parts.dropLast ++ [mappedName rel]⟩)) := by
  refine ⟨?_, url_to_outpath_of_name_nil root outdir rel,
    url_to_outpath_of_name_ne root outdir rel⟩
  intro hq hend
  have hrb : relBase rel = rel ++ ("index.html").toList := by
    rw [relBase, relAfterIndex, if_pos hend]
    apply takeUntilChar_of_not_mem
    intro hmem
    rcases List.mem_append.1 hmem with hm | hm
    · exact hq hm
    · exact absurd hm (by decide)
  have hrn : relName rel = ("index.html").toList := by
    rcases hend with hnil | hsl
    · subst hnil
      rw [relName, hrb]
      decide
    · obtain ⟨u, hu⟩ := List.getLast?_eq_some_iff.1 hsl
      rw [relName, hrb, hu, List.append_assoc, List.singleton_append, parsePPath, pName]
      rw [splitOnChar_sep_append, List.filter_append]
      rw [List.getLast?_append]
      rfl
  have hne : relName rel ≠ [] := by
    rw [hrn]
    decide
  refine ⟨pJoin outdir ⟨(parsePPath (relBase rel)).absolute,
      (parsePPath (relBase rel)).parts.dropLast ++ [mappedName rel]⟩,
    url_to_outpath_of_name_ne root outdir rel hne, ?_⟩
  have hmn : mappedName rel = ("index.txt").toList := by
    simp only [mappedName, hrn]
    decide
  rw [hmn]
  exact pJoin_parts_last outdir _ _ _

/-- C3 witness. -/
theorem url_to_outpath_spec_witness :
    (∃ p, url_to_outpath ((("https://s/r/").toList) ++ (("a/").toList))
        (("https://s/r/").toList) ⟨true, [("out").toList]⟩ = some p ∧
      p.parts.getLast? = some (("index.txt").toList)) ∧
    url_to_outpath ((("https://s/r/").toList) ++ (("?x=1").toList))
        (("https://s/r/").toList) ⟨true, [("out").toList]⟩ = none ∧
    url_to_outpath ((("https://s/r/").toList) ++ (("c.png").toList))
        (("https://s/r/").toList) ⟨true, [("out").toList]⟩
      = some (pJoin ⟨true, [("out").toList]⟩
          ⟨(parsePPath (relBase (("c.png").toList))).absolute,
            (parsePPath (relBase (("c.png").toList))).parts.dropLast
              ++ [mappedName (("c.png").toList)]⟩) :=
  ⟨(url_to_outpath_spec (("https://s/r/").toList) ⟨true, [("out").toList]⟩
      (("a/").toList)).1 (by decide) (by decide),
   (url_to_outpath_spec (("https://s/r/").toList) ⟨true, [("out").toList]⟩
      (("?x=1").toList)).2.1 (by decide),
   (url_to_outpath_spec (("https://s/r/").toList) ⟨true, [("out").toList]⟩
      (("c.png").toList)).2.2 (by decide)⟩

end Scrape
